import Mathlib

/-!
Verification development for the circuit-analysis / RF-optimization core of the
eco-vehicle-app repository.  The C++ sources under src/src/circuit are embedded
shallowly: machine doubles become exact rationals (ℚ) except where IEEE special
values (Inf/NaN) are themselves the subject of a claim, in which case a small
float-value model `F` with explicit infinities and NaN is used; `std::complex`
becomes the pair type `CQ`; Eigen's dense solve of `A x = b` becomes exact
Gaussian elimination (for an invertible system both produce the unique solution,
the float one up to rounding; for a zero right-hand side both produce the zero
vector).  Transcendental library functions (exp, cos, sin, sqrt, pi) have no
rational values, so definitions that use them take the function as an explicit
argument; theorems quantify over those arguments, adding only the hypotheses
actually used (such as exp 0 = 1).
-/

namespace Circuit

/-- `std::complex<double>` (`circuit::Complex` in Component.hpp), modelled with
exact rational parts. -/
structure CQ where
  re : ℚ
  im : ℚ
deriving DecidableEq

instance : Zero CQ := ⟨⟨0, 0⟩⟩

instance : One CQ := ⟨⟨1, 0⟩⟩

/-- Complex addition. -/
def CQ.add (z w : CQ) : CQ := ⟨z.re + w.re, z.im + w.im⟩

/-- Complex subtraction. -/
def CQ.sub (z w : CQ) : CQ := ⟨z.re - w.re, z.im - w.im⟩

/-- Complex negation. -/
def CQ.neg (z : CQ) : CQ := ⟨-z.re, -z.im⟩

/-- Complex multiplication. -/
def CQ.mul (z w : CQ) : CQ := ⟨z.re * w.re - z.im * w.im, z.re * w.im + z.im * w.re⟩

/-- Squared magnitude `std::norm`. -/
def CQ.normSq (z : CQ) : ℚ := z.re * z.re + z.im * z.im

/-- Complex conjugate `std::conj`. -/
def CQ.conj (z : CQ) : CQ := ⟨z.re, -z.im⟩

/-- Complex reciprocal; the reciprocal of 0 is 0 (the evaluated circuits never
divide by a complex zero on a path whose value matters — see the comments at
the use sites). -/
def CQ.inv (z : CQ) : CQ := ⟨z.re / z.normSq, -z.im / z.normSq⟩

/-- Complex division. -/
def CQ.div (z w : CQ) : CQ := z.mul w.inv

/-- Embedding of a rational (a real scalar) as a complex value. -/
def CQ.ofQ (q : ℚ) : CQ := ⟨q, 0⟩

instance : Add CQ := ⟨CQ.add⟩

instance : Sub CQ := ⟨CQ.sub⟩

instance : Neg CQ := ⟨CQ.neg⟩

instance : Mul CQ := ⟨CQ.mul⟩

instance : Inv CQ := ⟨CQ.inv⟩

instance : Div CQ := ⟨CQ.div⟩

/-- Dot product of two complex vectors (truncating to the shorter one, as
`zipWith` does; all uses have equal lengths). -/
def dotCQ (xs ys : List CQ) : CQ :=
  (List.zipWith CQ.mul xs ys).foldr CQ.add 0

/-!  ### The dense linear solve

`CircuitAnalyzer::solve` calls `A_.colPivHouseholderQr().solve(b_)` (Eigen).
The external solver is modelled by exact Gaussian elimination with
first-nonzero-pivot selection and zero fill-in for pivotless columns: for an
invertible `A` this is the exact value the QR solve approximates, and for
`b = 0` both return the zero vector (a rank-revealing triangular solve of a
zero right-hand side is zero). -/

/-- One elimination step: subtract the multiple of the pivot row that clears
the leading entry of `r`, and drop that leading entry. -/
def elimRow (p r : List CQ × CQ) : List CQ × CQ :=
  let f := (r.1.headD 0).div (p.1.headD 0)
  (List.zipWith (fun a b => a.sub (f.mul b)) r.1.tail p.1.tail, r.2.sub (f.mul p.2))

/-- Select the first row whose leading coefficient is nonzero, returning it and
the remaining rows in order. -/
def findPivot : List (List CQ × CQ) → Option ((List CQ × CQ) × List (List CQ × CQ))
  | [] => none
  | r :: rs =>
    if r.1.headD 0 ≠ 0 then some (r, rs)
    else
      match findPivot rs with
      | none => none
      | some (p, rest) => some (p, r :: rest)

/-- Gaussian elimination over the augmented rows, recursing over the `n`
columns; a column without a pivot contributes a zero solution entry. -/
def gaussAux : ℕ → List (List CQ × CQ) → List CQ
  | 0, _ => []
  | n + 1, rows =>
    match findPivot rows with
    | none => 0 :: gaussAux n (rows.map fun r => (r.1.tail, r.2))
    | some (p, rest) =>
      let xs := gaussAux n (rest.map (elimRow p))
      ((p.2.sub (dotCQ p.1.tail xs)).div (p.1.headD 0)) :: xs

/-- Solve the `n × n` system given as augmented rows. -/
def gaussSolve (n : ℕ) (rows : List (List CQ × CQ)) : List CQ :=
  gaussAux n rows

/-!  ### Component model (Component.hpp, BasicComponents.hpp)

Parameter maps (`std::map<std::string,double>`) are association lists with
insert-or-assign; only lookup and insert are used by the source.  Pins hold the
node they are connected to (`none` = not yet connected, as after construction);
node identity is the position in the analyzer's node list, which matches the
C++ `nodes_` vector because nodes are only ever appended.  The `OpAmp` class of
BasicComponents.hpp is not modelled: its `getVoltageAcross` compares a
`std::complex` with `0` using `operator>`, which is ill-formed C++, and no
claim mentions it. -/

/-- Parameter-map key for a resistor's resistance. -/
def kResistance : String := (r"resistance")

/-- Parameter-map key for a capacitor's capacitance. -/
def kCapacitance : String := (r"capacitance")

/-- Parameter-map key for an inductor's inductance. -/
def kInductance : String := (r"inductance")

/-- Parameter-map key for a source's voltage. -/
def kVoltage : String := (r"voltage")

/-- Parameter-map key for a source's frequency. -/
def kFrequency : String := (r"frequency")

/-- Parameter-map key for a diode's saturation current. -/
def kIs : String := (r"is")

/-- Parameter-map key for a diode's thermal voltage. -/
def kVt : String := (r"vt")

/-- `Component::setParameter`: insert-or-assign into the parameter map. -/
def setParam (ps : List (String × ℚ)) (name : String) (v : ℚ) : List (String × ℚ) :=
  if ps.any (fun p => p.1 = name) then
    ps.map (fun p => if p.1 = name then (name, v) else p)
  else ps ++ [(name, v)]

/-- `Component::getParameter`: look the name up, returning `0.0` when absent;
the map is not touched (`find` on a `const` map). -/
def getParam (ps : List (String × ℚ)) (name : String) : ℚ :=
  match ps.lookup name with
  | some v => v
  | none => 0

/-- `Component::getParameter` as the caller observes the whole call: the
returned value together with the (unchanged) parameter map of the component
after the call. -/
def getParamCall (ps : List (String × ℚ)) (name : String) : ℚ × List (String × ℚ) :=
  (getParam ps name, ps)

/-- The concrete component classes of BasicComponents.hpp. -/
inductive CompKind
  | resistor
  | capacitor
  | inductor
  | vsource
  | diode
deriving DecidableEq

/-- A component object: identity, discriminated kind, parameter map, pin→node
connections, and the per-class mutable state fields (`charge_`, `flux_`,
`current_time_`, `current_`); each concrete class uses only its own field. -/
structure Component where
  name : String
  kind : CompKind
  params : List (String × ℚ)
  pins : List (Option ℕ)
  charge : ℚ
  flux : ℚ
  currentTime : ℚ
  current : CQ
deriving DecidableEq

/-- `Resistor::Resistor(name, resistance)`. -/
def mkResistor (name : String) (resistance : ℚ) : Component :=
  { name := name, kind := CompKind.resistor,
    params := setParam [] kResistance resistance,
    pins := [none, none], charge := 0, flux := 0, currentTime := 0, current := 0 }

/-- `Capacitor::Capacitor(name, capacitance)`. -/
def mkCapacitor (name : String) (capacitance : ℚ) : Component :=
  { name := name, kind := CompKind.capacitor,
    params := setParam [] kCapacitance capacitance,
    pins := [none, none], charge := 0, flux := 0, currentTime := 0, current := 0 }

/-- `Inductor::Inductor(name, inductance)`. -/
def mkInductor (name : String) (inductance : ℚ) : Component :=
  { name := name, kind := CompKind.inductor,
    params := setParam [] kInductance inductance,
    pins := [none, none], charge := 0, flux := 0, currentTime := 0, current := 0 }

/-- `VoltageSource::VoltageSource(name, voltage, frequency = 0)`. -/
def mkVoltageSource (name : String) (voltage frequency : ℚ) : Component :=
  { name := name, kind := CompKind.vsource,
    params := setParam (setParam [] kVoltage voltage) kFrequency frequency,
    pins := [none, none], charge := 0, flux := 0, currentTime := 0, current := 0 }

/-- `Diode::Diode(name)`: saturation current 1e-12, thermal voltage 0.026. -/
def mkDiode (name : String) : Component :=
  { name := name, kind := CompKind.diode,
    params := setParam (setParam [] kIs (1 / 1000000000000)) kVt (26 / 1000),
    pins := [none, none], charge := 0, flux := 0, currentTime := 0, current := 0 }

/-- `Pin::connectTo`: wire pin `i` of the component to an existing node. -/
def connectPin (c : Component) (i : ℕ) (node : ℕ) : Component :=
  { c with pins := c.pins.set i (some node) }

/-- The node a pin references (`pin->getNode()`), `none` when unconnected. -/
def Component.node (c : Component) (i : ℕ) : Option ℕ :=
  (c.pins.getD i none)

/-- Voltage of a node by id. -/
def nodeV (nodes : List CQ) (i : ℕ) : CQ :=
  nodes.getD i 0

/-- `std::abs` of a complex value, via a caller-supplied model `sqrtF` of the
real square root. -/
def absC (sqrtF : ℚ → ℚ) (z : CQ) : ℚ :=
  sqrtF z.normSq

/-- `getVoltageAcross` of each concrete class.  Every passive class returns
`v(pin0) − v(pin1)`; a voltage source with nonzero frequency parameter returns
the rotating phasor `V·(cos ωt, sin ωt)` built from the supplied models of
cos and sin, with `ω = 2π·f` (`piQ` models π). -/
def getVoltageAcross (cosF sinF : ℚ → ℚ) (piQ : ℚ) (nodes : List CQ) (c : Component) : CQ :=
  match c.kind with
  | CompKind.vsource =>
    let freq := getParam c.params kFrequency
    if freq = 0 then CQ.ofQ (getParam c.params kVoltage)
    else
      let omega := 2 * piQ * freq
      ⟨getParam c.params kVoltage * cosF (omega * c.currentTime),
       getParam c.params kVoltage * sinF (omega * c.currentTime)⟩
  | _ => (nodeV nodes ((c.node 0).getD 0)).sub (nodeV nodes ((c.node 1).getD 0))

/-- `getImpedance(frequency)` of each concrete class, as the value consumed by
the analyzer.  The capacitor's `frequency == 0` branch returns
`Complex(INFINITY, 0)` in the source; here it is represented by the complex
zero, because `CQ.inv 0 = 0` reproduces exactly the value `1/INFINITY = 0`
that libstdc++ complex division gives everywhere the analyzer consumes it
(`y = 1/z` in `buildMNA`, `v/z` in `Capacitor::getCurrentThrough`).  The IEEE
value itself is the subject of claim C7 and is modelled separately and
faithfully over the float model `F` below.  The diode's dynamic resistance
`vt/id` at `id = 0` (a division by zero, +Inf in the source) is likewise
represented by zero with the same justification. -/
def getImpedance (expF sqrtF cosF sinF : ℚ → ℚ) (piQ : ℚ) (nodes : List CQ)
    (frequency : ℚ) (c : Component) : CQ :=
  match c.kind with
  | CompKind.resistor => CQ.ofQ (getParam c.params kResistance)
  | CompKind.capacitor =>
    if frequency = 0 then 0
    else
      let xc := 1 / (2 * piQ * frequency * getParam c.params kCapacitance)
      ⟨0, -xc⟩
  | CompKind.inductor => ⟨0, 2 * piQ * frequency * getParam c.params kInductance⟩
  | CompKind.vsource => 0
  | CompKind.diode =>
    let v := absC sqrtF (getVoltageAcross cosF sinF piQ nodes c)
    let is := getParam c.params kIs
    let vt := getParam c.params kVt
    let id := is * (expF (v / vt) - 1)
    CQ.ofQ (vt / id)

/-- `getCurrentThrough` of each concrete class.  The capacitor and inductor
divide by their impedance at their private `current_frequency_` member, which
is initialized to 0 and never written. -/
def getCurrentThrough (expF sqrtF cosF sinF : ℚ → ℚ) (piQ : ℚ) (nodes : List CQ)
    (c : Component) : CQ :=
  match c.kind with
  | CompKind.resistor =>
    ((nodeV nodes ((c.node 0).getD 0)).sub (nodeV nodes ((c.node 1).getD 0))).div
      (CQ.ofQ (getParam c.params kResistance))
  | CompKind.capacitor =>
    (getVoltageAcross cosF sinF piQ nodes c).div
      (getImpedance expF sqrtF cosF sinF piQ nodes 0 c)
  | CompKind.inductor =>
    (getVoltageAcross cosF sinF piQ nodes c).div
      (getImpedance expF sqrtF cosF sinF piQ nodes 0 c)
  | CompKind.vsource => c.current
  | CompKind.diode =>
    let v := absC sqrtF (getVoltageAcross cosF sinF piQ nodes c)
    let is := getParam c.params kIs
    let vt := getParam c.params kVt
    CQ.ofQ (is * (expF (v / vt) - 1))

/-- `updateState(timestep)` of each concrete class: capacitors integrate
`|i|·dt` into `charge_`, inductors `|v|·dt` into `flux_`, voltage sources
advance `current_time_`; resistors and diodes are memoryless. -/
def updateState (expF sqrtF cosF sinF : ℚ → ℚ) (piQ : ℚ) (nodes : List CQ)
    (timestep : ℚ) (c : Component) : Component :=
  match c.kind with
  | CompKind.resistor => c
  | CompKind.capacitor =>
    let i := getCurrentThrough expF sqrtF cosF sinF piQ nodes c
    { c with charge := c.charge + absC sqrtF i * timestep }
  | CompKind.inductor =>
    let v := getVoltageAcross cosF sinF piQ nodes c
    { c with flux := c.flux + absC sqrtF v * timestep }
  | CompKind.vsource => { c with currentTime := c.currentTime + timestep }
  | CompKind.diode => c

/-!  ### CircuitAnalyzer (CircuitAnalyzer.hpp) -/

/-- The analyzer's state: `components_`, `nodes_` (each node reduced to its
voltage; identity is list position), `voltage_sources_`, `ground_node_`,
`current_frequency_`, `time_`, `timestep_` (initialized to 1e-6 and never
written), `next_node_id_`, and `frequency_response_`.  No constructor or
member function of `CircuitAnalyzer` ever inserts into `voltage_sources_`, so
in every reachable state that list is empty; it is nevertheless carried and
stamped faithfully. -/
structure AnalyzerState where
  components : List Component
  nodes : List CQ
  voltageSources : List Component
  groundNode : Option ℕ
  currentFrequency : ℚ
  time : ℚ
  timestep : ℚ
  nextNodeId : ℕ
  freqResponse : List (ℚ × List CQ)
deriving DecidableEq

/-- A freshly constructed `CircuitAnalyzer`. -/
def initState : AnalyzerState :=
  { components := [], nodes := [], voltageSources := [], groundNode := none,
    currentFrequency := 0, time := 0, timestep := 1 / 1000000, nextNodeId := 0,
    freqResponse := [] }

/-- `CircuitAnalyzer::addComponent`: append the component; every pin without a
node gets a freshly appended node (zero voltage). -/
def addComponent (s : AnalyzerState) (c : Component) : AnalyzerState :=
  let step := c.pins.foldl
    (fun (acc : List (Option ℕ) × List CQ × ℕ) pin =>
      match pin with
      | some n => (acc.1 ++ [some n], acc.2.1, acc.2.2)
      | none => (acc.1 ++ [some acc.2.1.length], acc.2.1 ++ [0], acc.2.2 + 1))
    ([], s.nodes, s.nextNodeId)
  { s with components := s.components ++ [{ c with pins := step.1 }],
           nodes := step.2.1, nextNodeId := step.2.2 }

/-- `CircuitAnalyzer::setGroundNode`. -/
def setGroundNode (s : AnalyzerState) (n : ℕ) : AnalyzerState :=
  { s with groundNode := some n }

/-- `CircuitAnalyzer::getNodeIndex`: −1 for the ground node (pointer equality;
with no ground set, `ground_node_` is null and matches no node) and for a null
node, otherwise the position in `nodes_`. -/
def getNodeIndex (s : AnalyzerState) (n : Option ℕ) : ℤ :=
  match n with
  | none => -1
  | some i => if s.groundNode = some i then -1 else if i < s.nodes.length then (i : ℤ) else -1

/-- Matrix entry update `A(i,j) += v` at integer indices; negative indices are
the guarded-out ground stamps; the function-backed matrix accepts any
nonnegative index, and the solve below reads only the assembled `size×size`
block (an out-of-range Eigen write is an assertion failure / out-of-bounds
access in the source — it cannot occur when the ground node is the last node,
and the claims' evaluations avoid it). -/
def maddAt (A : ℕ → ℕ → CQ) (i j : ℤ) (v : CQ) : ℕ → ℕ → CQ :=
  fun i' j' => if (i' : ℤ) = i ∧ (j' : ℤ) = j then (A i' j').add v else A i' j'

/-- Matrix entry assignment `A(i,j) = v` at integer indices. -/
def msetAt (A : ℕ → ℕ → CQ) (i j : ℤ) (v : CQ) : ℕ → ℕ → CQ :=
  fun i' j' => if (i' : ℤ) = i ∧ (j' : ℤ) = j then v else A i' j'

/-- Vector entry assignment `b(i) = v`. -/
def vsetAt (b : ℕ → CQ) (i : ℤ) (v : CQ) : ℕ → CQ :=
  fun i' => if (i' : ℤ) = i then v else b i'

/-- The conductance stamps of one non-source component
(`buildMNA`, lines 92–110). -/
def stampComponent (s : AnalyzerState) (expF sqrtF cosF sinF : ℚ → ℚ) (piQ : ℚ)
    (A : ℕ → ℕ → CQ) (c : Component) : ℕ → ℕ → CQ :=
  if c.kind ≠ CompKind.vsource then
    let z := getImpedance expF sqrtF cosF sinF piQ s.nodes s.currentFrequency c
    let y := CQ.inv z
    let n1 := getNodeIndex s (c.node 0)
    let n2 := getNodeIndex s (c.node 1)
    let A1 := if 0 ≤ n1 then
        let Aa := maddAt A n1 n1 y
        if 0 ≤ n2 then maddAt Aa n1 n2 y.neg else Aa
      else A
    if 0 ≤ n2 then
      let Ab := maddAt A1 n2 n2 y
      if 0 ≤ n1 then maddAt Ab n2 n1 y.neg else Ab
    else A1
  else A

/-- The voltage-source constraint stamps of `buildMNA` (lines 112–132): ±1
couplings to the auxiliary current unknown and the commanded voltage in `b`. -/
def stampSource (s : AnalyzerState) (cosF sinF : ℚ → ℚ) (piQ : ℚ)
    (acc : (ℕ → ℕ → CQ) × (ℕ → CQ) × ℤ) (vs : Component) :
    (ℕ → ℕ → CQ) × (ℕ → CQ) × ℤ :=
  let A := acc.1
  let b := acc.2.1
  let vsi := acc.2.2
  let n1 := getNodeIndex s (vs.node 0)
  let n2 := getNodeIndex s (vs.node 1)
  let A1 := if 0 ≤ n1 then msetAt (msetAt A n1 vsi 1) vsi n1 1 else A
  let A2 := if 0 ≤ n2 then msetAt (msetAt A1 n2 vsi (CQ.neg 1)) vsi n2 (CQ.neg 1) else A1
  let b1 := vsetAt b vsi (getVoltageAcross cosF sinF piQ s.nodes vs)
  (A2, b1, vsi + 1)

/-- `CircuitAnalyzer::buildMNA`: the assembled matrix, right-hand side, and
system size `(#nodes − 1) + #voltage sources`. -/
def buildMNA (expF sqrtF cosF sinF : ℚ → ℚ) (piQ : ℚ) (s : AnalyzerState) :
    (ℕ → ℕ → CQ) × (ℕ → CQ) × ℕ :=
  let n := s.nodes.length - 1
  let m := s.voltageSources.length
  let size := n + m
  let A0 : ℕ → ℕ → CQ := fun _ _ => 0
  let b0 : ℕ → CQ := fun _ => 0
  let AG := s.components.foldl (stampComponent s expF sqrtF cosF sinF piQ) A0
  let step := s.voltageSources.foldl (stampSource s cosF sinF piQ) (AG, b0, (n : ℤ))
  (step.1, step.2.1, size)

/-- Materialize the function-backed system as augmented rows for the solver. -/
def systemRows (A : ℕ → ℕ → CQ) (b : ℕ → CQ) (size : ℕ) : List (List CQ × CQ) :=
  (List.range size).map (fun i => ((List.range size).map (A i), b i))

/-- `CircuitAnalyzer::solve`, write-back half: the first `#nodes − 1` entries
of the solution become node voltages (the last node — the ground node, when it
was created last — keeps its stored voltage), the remaining entries become the
voltage sources' currents. -/
def writeBack (s : AnalyzerState) (x : List CQ) : AnalyzerState :=
  let n := s.nodes.length - 1
  { s with
    nodes := s.nodes.mapIdx (fun i v => if i < n then x.getD i 0 else v),
    voltageSources := s.voltageSources.mapIdx
      (fun k vs => { vs with current := x.getD (n + k) 0 }) }

/-- `CircuitAnalyzer::updateComponents`: `updateState(timestep_)` on every
component, with the analyzer's fixed `timestep_` member (1e-6), not with any
sweep's dt.  (`voltage_sources_` would alias entries of `components_` in the
source; it is always empty, see `AnalyzerState`.) -/
def updateComponents (expF sqrtF cosF sinF : ℚ → ℚ) (piQ : ℚ) (s : AnalyzerState) :
    AnalyzerState :=
  { s with components :=
      s.components.map (updateState expF sqrtF cosF sinF piQ s.nodes s.timestep) }

/-- `CircuitAnalyzer::analyze(frequency)`: record the frequency, assemble the
MNA system, solve it, write the solution back, then update component state.
There is no check of any kind before assembly and no failure path: the
function is total. -/
def analyze (expF sqrtF cosF sinF : ℚ → ℚ) (piQ : ℚ) (f : ℚ) (s : AnalyzerState) :
    AnalyzerState :=
  let s1 := { s with currentFrequency := f }
  let sys := buildMNA expF sqrtF cosF sinF piQ s1
  let x := gaussSolve sys.2.2 (systemRows sys.1 sys.2.1 sys.2.2)
  updateComponents expF sqrtF cosF sinF piQ (writeBack s1 x)

/-- `CircuitAnalyzer::getNodeVoltages`. -/
def getNodeVoltages (s : AnalyzerState) : List CQ :=
  s.nodes

/-- The loop body of `CircuitAnalyzer::performTransient`, with explicit fuel
(the source's `while (t < stop_time)` advances `t` by `timestep` per pass, so
`⌈stop/dt⌉ + 1` passes suffice for positive `dt`).  Each pass runs
`analyze()` — which itself ends in `updateComponents()`, i.e. one
`updateState(timestep_)` per component — and then calls `updateState(timestep)`
once more on every component. -/
def transientLoop (expF sqrtF cosF sinF : ℚ → ℚ) (piQ : ℚ) (stop dt : ℚ) :
    ℕ → ℚ → AnalyzerState → AnalyzerState
  | 0, _, s => s
  | fuel + 1, t, s =>
    if t < stop then
      let s1 := analyze expF sqrtF cosF sinF piQ 0 s
      let s2 := { s1 with components :=
          s1.components.map (updateState expF sqrtF cosF sinF piQ s1.nodes dt) }
      transientLoop expF sqrtF cosF sinF piQ stop dt fuel (t + dt)
        { s2 with time := t + dt }
    else s

/-- `CircuitAnalyzer::performTransient(stop_time, timestep)`. -/
def performTransient (expF sqrtF cosF sinF : ℚ → ℚ) (piQ : ℚ) (stop dt : ℚ)
    (s : AnalyzerState) : AnalyzerState :=
  transientLoop expF sqrtF cosF sinF piQ stop dt ((stop / dt).ceil.toNat + 1) 0 s

/-!  ### A model of IEEE doubles with special values

Used where a claim is about Inf/NaN themselves: the AC sweep's
`(log_stop - log_start) / (points - 1)` at `points = 1`, and the sentinel
impedances of claim C7.  Finite values are exact rationals; rounding is not
modelled (the claims under test concern structure, not rounding error). -/

/-- A double: a finite rational, an infinity, or NaN. -/
inductive F
  | fin (q : ℚ)
  | pinf
  | ninf
  | nan
deriving DecidableEq

/-- IEEE negation. -/
def F.neg : F → F
  | F.fin q => F.fin (-q)
  | F.pinf => F.ninf
  | F.ninf => F.pinf
  | F.nan => F.nan

/-- IEEE addition. -/
def F.add : F → F → F
  | F.fin a, F.fin b => F.fin (a + b)
  | F.fin _, F.pinf => F.pinf
  | F.fin _, F.ninf => F.ninf
  | F.pinf, F.fin _ => F.pinf
  | F.ninf, F.fin _ => F.ninf
  | F.pinf, F.pinf => F.pinf
  | F.ninf, F.ninf => F.ninf
  | F.pinf, F.ninf => F.nan
  | F.ninf, F.pinf => F.nan
  | _, _ => F.nan

/-- IEEE subtraction. -/
def F.sub (a b : F) : F := a.add b.neg

/-- IEEE multiplication (`0 × ∞ = NaN`). -/
def F.mul : F → F → F
  | F.fin a, F.fin b => F.fin (a * b)
  | F.fin a, F.pinf => if a > 0 then F.pinf else if a < 0 then F.ninf else F.nan
  | F.fin a, F.ninf => if a > 0 then F.ninf else if a < 0 then F.pinf else F.nan
  | F.pinf, F.fin b => if b > 0 then F.pinf else if b < 0 then F.ninf else F.nan
  | F.ninf, F.fin b => if b > 0 then F.ninf else if b < 0 then F.pinf else F.nan
  | F.pinf, F.pinf => F.pinf
  | F.ninf, F.ninf => F.pinf
  | F.pinf, F.ninf => F.ninf
  | F.ninf, F.pinf => F.ninf
  | _, _ => F.nan

/-- IEEE division (`x/0 = ±∞` for `x ≠ 0`, `0/0 = NaN`, `x/±∞ = 0`). -/
def F.div : F → F → F
  | F.fin a, F.fin b =>
    if b = 0 then (if a > 0 then F.pinf else if a < 0 then F.ninf else F.nan)
    else F.fin (a / b)
  | F.fin _, F.pinf => F.fin 0
  | F.fin _, F.ninf => F.fin 0
  | F.pinf, F.fin b => if 0 ≤ b then F.pinf else F.ninf
  | F.ninf, F.fin b => if 0 ≤ b then F.ninf else F.pinf
  | _, _ => F.nan

/-- Whether a double is a finite value. -/
def F.isFinite : F → Bool
  | F.fin _ => true
  | _ => false

/-- Whether a double is NaN. -/
def F.isNan : F → Bool
  | F.nan => true
  | _ => false

/-!  ### AC sweep sampling (`CircuitAnalyzer::performAC`, lines 52–67)

The loop is modelled in the log domain: `x ↦ 10^x` is a strictly monotone
bijection from exponents to positive frequencies, so statements about the
sampled frequencies (count, endpoints, ordering, key identity) are exactly
statements about the sampled exponents `log_start + i·step`, which is where
all of the loop's arithmetic happens.  The endpoints enter as their base-10
logarithms.  `step` is computed in `F` because the source divides by
`points - 1`, which is zero when one point is requested. -/

/-- `step = (log_stop - log_start) / (points - 1)`. -/
def acStep (logStart logStop : ℚ) (points : ℤ) : F :=
  F.div (F.sub (F.fin logStop) (F.fin logStart)) (F.fin ((points : ℚ) - 1))

/-- The sampled exponents `log_start + i * step` for `i = 0, …, points−1`
(the frequency pushed for `i` is `10^(that exponent)`; `10^NaN = NaN`). -/
def acExponents (logStart logStop : ℚ) (points : ℤ) : List F :=
  (List.range points.toNat).map
    (fun (i : ℕ) => F.add (F.fin logStart) (F.mul (F.fin (i : ℚ)) (acStep logStart logStop points)))

/-- `frequency_response_[freq] = voltages`: insert-or-assign keyed by the
sampled value. -/
def recordResponse (resp : List (F × List CQ)) (key : F) (v : List CQ) :
    List (F × List CQ) :=
  if resp.any (fun p => p.1 = key) then
    resp.map (fun p => if p.1 = key then (key, v) else p)
  else resp ++ [(key, v)]

/-- The recording loop of `performAC` (lines 62–66), abstracted over the
node-voltage vector `volts e` that `analyze` leaves for the sample with
exponent `e` (the analyze write-back itself is embedded separately; for every
reachable circuit it writes the zero vector regardless of frequency, see
`analyze_writes_zeros`). -/
def performACRecord (volts : F → List CQ) (logStart logStop : ℚ) (points : ℤ) :
    List (F × List CQ) :=
  (acExponents logStart logStop points).foldl
    (fun m e => recordResponse m e (volts e)) []

/-!  ### The sentinel impedances over `F` (claim C7) -/

/-- A `std::complex<double>` with its special values. -/
structure CF where
  re : F
  im : F
deriving DecidableEq

/-- Componentwise complex subtraction (exact for finite values). -/
def CF.sub (z w : CF) : CF := ⟨z.re.sub w.re, z.im.sub w.im⟩

/-- `std::abs` on a complex double, via a model `sqrtFF` of the square root. -/
def absCF (sqrtFF : F → F) (z : CF) : F :=
  sqrtFF ((z.re.mul z.re).add (z.im.mul z.im))

/-- `Capacitor::getImpedance(frequency)` over doubles: the `frequency == 0`
branch returns `Complex(INFINITY, 0)` verbatim; otherwise the reactance
`1/(2π f C)` (with `piF` modelling `M_PI`). -/
def capacitorImpedanceF (piF : F) (capacitance frequency : F) : CF :=
  if frequency = F.fin 0 then ⟨F.pinf, F.fin 0⟩
  else
    let xc := F.div (F.fin 1) (((F.fin 2).mul piF).mul frequency |>.mul capacitance)
    ⟨F.fin 0, xc.neg⟩

/-- `Diode::getImpedance` over doubles, as a function of the two pin voltages:
`v = |v(anode) − v(cathode)|`, `id = is·(e^(v/vt) − 1)`, result
`Complex(vt/id, 0)` — a division by zero when the diode carries no current. -/
def diodeImpedanceF (expFF sqrtFF : F → F) (is vt : F) (vAnode vCathode : CF) : CF :=
  let v := absCF sqrtFF (vAnode.sub vCathode)
  let id := is.mul ((expFF (v.div vt)).sub (F.fin 1))
  ⟨vt.div id, F.fin 0⟩

/-!  ### StabilityAnalyzer (AdvancedAnalysis.hpp, lines 110–212)

`metrics.delta` is declared `double` in the source but assigned the complex
expression `S11·S22 − S21·S12` (which does not compile as written); it is
modelled as the complex value the dataflow requires, which is also what the
spec says it is.  `calculateZParameters` is a placeholder that performs the
analysis and then returns the value-initialized (all-zero) Z-matrix. -/

/-- A two-port S-parameter matrix. -/
structure SMatrix where
  s11 : CQ
  s12 : CQ
  s21 : CQ
  s22 : CQ
deriving DecidableEq

/-- The `StabilityMetrics` result struct. -/
structure StabilityMetrics where
  kFactor : ℚ
  delta : CQ
  muSource : ℚ
  muLoad : ℚ
  unconditionallyStable : Bool
deriving DecidableEq

/-- `StabilityAnalyzer::analyzeStability`, from the S-parameters it computes
(lines 128–148): `K = (1 − |S11|² − |S22|² + |Δ|²)/(2·√(|S21|²·|S12|²))`, the
μ measures, and `unconditionally_stable = (K > 1) && (|Δ|² < 1)`.  `sqrtF`
models `std::sqrt`/`std::abs`. -/
def analyzeStabilityS (sqrtF : ℚ → ℚ) (sp : SMatrix) : StabilityMetrics :=
  let s11s11 := sp.s11.normSq
  let s22s22 := sp.s22.normSq
  let s21s12 := sp.s21.normSq * sp.s12.normSq
  let delta := (sp.s11.mul sp.s22).sub (sp.s21.mul sp.s12)
  let deltaSq := delta.normSq
  let k := (1 - s11s11 - s22s22 + deltaSq) / (2 * sqrtF s21s12)
  let muS := (1 - s11s11) /
    (absC sqrtF (sp.s22.sub (delta.conj.mul sp.s11)) + absC sqrtF (sp.s21.mul sp.s12))
  let muL := (1 - s22s22) /
    (absC sqrtF (sp.s11.sub (delta.conj.mul sp.s22)) + absC sqrtF (sp.s21.mul sp.s12))
  { kFactor := k, delta := delta, muSource := muS, muLoad := muL,
    unconditionallyStable := decide (k > 1) && decide (deltaSq < 1) }

/-- `StabilityAnalyzer::calculateSParameters`, the Z→S conversion with
reference impedance `z0 = 50 Ω` (lines 169–191). -/
def zToS (z11 z12 z21 z22 : CQ) : SMatrix :=
  let z0 : CQ := CQ.ofQ 50
  let den := ((z11.add z0).mul (z22.add z0)).sub (z12.mul z21)
  { s11 := (((z11.sub z0).mul (z22.add z0)).sub (z12.mul z21)).div den,
    s12 := (((CQ.ofQ 2).mul z0).mul z12).div den,
    s21 := (((CQ.ofQ 2).mul z0).mul z21).div den,
    s22 := (((z11.add z0).mul (z22.sub z0)).sub (z12.mul z21)).div den }

/-!  ### The optimizer family (RFOptimizer.hpp, AdvancedOptimizer.hpp)

Randomness: `std::uniform_real_distribution(a,b)(rng)` is modelled as
`a + u·(b−a)` where `u` is the next element of a caller-visible stream of raw
draws; the distribution's guarantee that the result lies in `[a,b]` (for
`a ≤ b`) corresponds to the hypothesis that every raw draw lies in `[0,1]`.
Each optimizer additionally returns the trace of every parameter vector it
passes to `evaluateFitness` (which immediately forwards it to the caller's
measurement function) — the trace is an observation channel, the updates
themselves are the source's.

`AdvancedOptimizer.hpp` calls `uniformInt`/`uniformReal` and uses private
members of its base class; neither helper is declared anywhere in the
repository.  `uniformReal` is taken to be `uniformDist`, and `uniformInt(a,b)`
a uniform integer in `[a,b]`, modelled as `⌊a + u·(b−a+1)⌋` capped at `b`. -/

/-- `RFOptimizer::Parameter`. -/
structure Param where
  name : String
  minValue : ℚ
  maxValue : ℚ
  currentValue : ℚ
deriving DecidableEq

/-- A placeholder `Parameter` for out-of-range vector indexing (the source
would have undefined behavior there; no run evaluated below reaches it). -/
def defaultParam : Param :=
  ⟨(r""), 0, 0, 0⟩

/-- `RFOptimizer::Objective::Type`. -/
inductive ObjKind
  | minimize
  | maximize
  | target
deriving DecidableEq

/-- `RFOptimizer::Objective`. -/
structure Objective where
  name : String
  kind : ObjKind
  targetValue : ℚ
  weight : ℚ
deriving DecidableEq

/-- The RNG: a stream of raw draws in `[0,1]`. -/
def Rng : Type := ℕ → ℚ

/-- Advance the stream by one draw. -/
def rngTail (g : Rng) : Rng := fun n => g (n + 1)

/-- `uniformDist(min, max)`: consume one draw. -/
def uniformDist (g : Rng) (a b : ℚ) : ℚ × Rng :=
  (a + g 0 * (b - a), rngTail g)

/-- `uniformInt(a, b)` of AdvancedOptimizer.hpp (not declared in the source;
modelled as an integer uniform in `[a,b]`, see the section comment). -/
def uniformInt (g : Rng) (a b : ℤ) : ℤ × Rng :=
  let u := uniformDist g 0 1
  (min (a + (u.1 * ((b : ℚ) - (a : ℚ) + 1)).floor) b, u.2)

/-- `std::clamp(v, lo, hi)` (requires `lo ≤ hi`, as all call sites ensure). -/
def clampQ (v lo hi : ℚ) : ℚ :=
  if v < lo then lo else if hi < v then hi else v

/-- `RFOptimizer::generateRandomIndividual`: each parameter's current value is
re-drawn uniformly in its own `[min, max]` (a range-for over the copied
vector, hence structural recursion in draw order). -/
def genRandomIndividual : List Param → Rng → List Param × Rng
  | [], g => ([], g)
  | p :: ps, g =>
    let u := uniformDist g p.minValue p.maxValue
    let rest := genRandomIndividual ps u.2
    ({ p with currentValue := u.1 } :: rest.1, rest.2)

/-- `RFOptimizer::generateRandomVelocity`: uniform in
`[−(max−min)/10, (max−min)/10]` per parameter. -/
def genRandomVelocity : List Param → Rng → List Param × Rng
  | [], g => ([], g)
  | p :: ps, g =>
    let range := p.maxValue - p.minValue
    let u := uniformDist g (-(range / 10)) (range / 10)
    let rest := genRandomVelocity ps u.2
    ({ p with currentValue := u.1 } :: rest.1, rest.2)

/-- `RFOptimizer::evaluateFitness`: the caller's measurement function gives
one value per objective; minimize contributes `−w·value`, maximize `+w·value`,
target `−w·|value − target|`. -/
def evaluateFitness (measure : List Param → List ℚ) (objectives : List Objective)
    (v : List Param) : ℚ :=
  let ms := measure v
  (objectives.enum).foldl
    (fun fit io =>
      let value := ms.getD io.1 0
      match io.2.kind with
      | ObjKind.minimize => fit - io.2.weight * value
      | ObjKind.maximize => fit + io.2.weight * value
      | ObjKind.target => fit - io.2.weight * |value - io.2.targetValue|)
    0

/-- `RFOptimizer::tournamentSelect` with the default tournament size 3: three
index draws `static_cast<size_t>(uniformDist(0, population.size()-1))`, winner
by best fitness, first on ties. -/
def tournamentSelect (pop : List (List Param)) (fitness : List ℚ) (g : Rng) :
    List Param × Rng :=
  let u1 := uniformDist g 0 ((pop.length : ℚ) - 1)
  let u2 := uniformDist u1.2 0 ((pop.length : ℚ) - 1)
  let u3 := uniformDist u2.2 0 ((pop.length : ℚ) - 1)
  let t : List ℕ := [u1.1.floor.toNat, u2.1.floor.toNat, u3.1.floor.toNat]
  let win := t.foldl
    (fun w i => if fitness.getD i 0 > fitness.getD w 0 then i else w) (t.headD 0)
  (pop.getD win [], u3.2)

/-- `RFOptimizer::crossover`: per gene (over `parameters_.size()` genes), with
probability 1/2 swap the two children's current values. -/
def crossoverGenes (paramCount : ℕ) (c1 c2 : List Param) (g : Rng) :
    List Param × List Param × Rng :=
  (List.range paramCount).foldl
    (fun acc i =>
      let u := uniformDist acc.2.2 0 1
      if u.1 < 1 / 2 then
        let a := acc.1.getD i defaultParam
        let b := acc.2.1.getD i defaultParam
        (acc.1.set i { a with currentValue := b.currentValue },
         acc.2.1.set i { b with currentValue := a.currentValue }, u.2)
      else (acc.1, acc.2.1, u.2))
    (c1, c2, g)

/-- `RFOptimizer::mutate`: per gene, with probability `mutation_rate` re-draw
the current value uniformly within that gene's bounds. -/
def mutateGenes (mutationRate : ℚ) : List Param → Rng → List Param × Rng
  | [], g => ([], g)
  | p :: ps, g =>
    let u := uniformDist g 0 1
    if u.1 < mutationRate then
      let u2 := uniformDist u.2 p.minValue p.maxValue
      let rest := mutateGenes mutationRate ps u2.2
      ({ p with currentValue := u2.1 } :: rest.1, rest.2)
    else
      let rest := mutateGenes mutationRate ps u.2
      (p :: rest.1, rest.2)

/-- The `while (new_population.size() < population_size)` reproduction loop of
`optimizeGeneticAlgorithm`; each pass appends one or two children, so
`population_size` passes of fuel are enough. -/
def gaBuildNewPop (paramCount : ℕ) (crossoverRate mutationRate : ℚ)
    (pop : List (List Param)) (fitness : List ℚ) (popSize : ℤ) :
    ℕ → List (List Param) → Rng → List (List Param) × Rng
  | 0, acc, g => (acc, g)
  | fuel + 1, acc, g =>
    if (acc.length : ℤ) < popSize then
      let p1 := tournamentSelect pop fitness g
      let p2 := tournamentSelect pop fitness p1.2
      let u := uniformDist p2.2 0 1
      let cc := if u.1 < crossoverRate then crossoverGenes paramCount p1.1 p2.1 u.2
                else (p1.1, p2.1, u.2)
      let m1 := mutateGenes mutationRate cc.1 cc.2.2
      let m2 := mutateGenes mutationRate cc.2.1 m1.2
      let acc1 := acc ++ [m1.1]
      let acc2 := if (acc1.length : ℤ) < popSize then acc1 ++ [m2.1] else acc1
      gaBuildNewPop paramCount crossoverRate mutationRate pop fitness popSize fuel acc2 m2.2
    else (acc, g)

/-- One generation of `optimizeGeneticAlgorithm`: evaluate every individual's
fitness (each a call into the measurement function, hence traced), then build
the next generation by selection/crossover/mutation. -/
def gaGeneration (measure : List Param → List ℚ) (objectives : List Objective)
    (paramCount : ℕ) (crossoverRate mutationRate : ℚ) (popSize : ℤ)
    (st : List (List Param) × Rng × List (List Param)) :
    List (List Param) × Rng × List (List Param) :=
  let pop := st.1
  let fitness := pop.map (evaluateFitness measure objectives)
  let build := gaBuildNewPop paramCount crossoverRate mutationRate pop fitness popSize
    popSize.toNat [] st.2.1
  (build.1, build.2, st.2.2 ++ pop)

/-- The final best-of-population scan of `optimizeGeneticAlgorithm` (lines
100–110): `best_fitness` starts at −∞ (modelled as `none`, which every finite
fitness beats), and every individual is re-evaluated (traced). -/
def gaPickBest (measure : List Param → List ℚ) (objectives : List Objective)
    (pop : List (List Param)) : List Param :=
  let best := pop.foldl
    (fun (bst : Option (ℚ × List Param)) ind =>
      let f := evaluateFitness measure objectives ind
      match bst with
      | none => some (f, ind)
      | some b => if f > b.1 then some (f, ind) else some b)
    none
  ((best.map Prod.snd).getD [])

/-- `RFOptimizer::optimizeGeneticAlgorithm`, returning the best vector and the
trace of every vector passed to the fitness/measurement function. -/
def optimizeGeneticAlgorithm (measure : List Param → List ℚ)
    (objectives : List Objective) (params : List Param) (popSize generations : ℤ)
    (mutationRate crossoverRate : ℚ) (g : Rng) : List Param × List (List Param) :=
  let init := (List.range popSize.toNat).foldl
    (fun (acc : List (List Param) × Rng) _ =>
      let rI := genRandomIndividual params acc.2
      (acc.1 ++ [rI.1], rI.2))
    ([], g)
  let gens := (List.range generations.toNat).foldl
    (fun st _ => gaGeneration measure objectives params.length crossoverRate
      mutationRate popSize st)
    (init.1, init.2, [])
  (gaPickBest measure objectives gens.1, gens.2.2 ++ gens.1)

/-- The particle-swarm working state: positions, velocities, per-particle
bests, the global best (`global_best_fitness` starts at −∞, modelled as
`none`, which every finite fitness beats), the RNG, and the fitness-call
trace. -/
structure PsoSt where
  positions : List (List Param)
  velocities : List (List Param)
  bestPositions : List (List Param)
  bestFitnesses : List ℚ
  globalBest : List Param
  globalBestFitness : Option ℚ
  rng : Rng
  trace : List (List Param)

/-- The per-gene velocity/position update of `optimizeParticleSwarm` (lines
149–168): `v' = w·v + c1·r1·(pbest−x) + c2·r2·(gbest−x)`, then
`x' = clamp(x + v')`. -/
def psoGeneLoop (w c1 c2 : ℚ) (paramCount : ℕ) (pb gb : List Param)
    (pos vel : List Param) (g : Rng) : List Param × List Param × Rng :=
  (List.range paramCount).foldl
    (fun acc j =>
      let u1 := uniformDist acc.2.2 0 1
      let u2 := uniformDist u1.2 0 1
      let pj := acc.1.getD j defaultParam
      let vj := acc.2.1.getD j defaultParam
      let newV := w * vj.currentValue +
        c1 * u1.1 * ((pb.getD j defaultParam).currentValue - pj.currentValue) +
        c2 * u2.1 * ((gb.getD j defaultParam).currentValue - pj.currentValue)
      let newP := clampQ (pj.currentValue + newV) pj.minValue pj.maxValue
      (acc.1.set j { pj with currentValue := newP },
       acc.2.1.set j { vj with currentValue := newV }, u2.2))
    (pos, vel, g)

/-- One particle update of `optimizeParticleSwarm`: move, clamp, evaluate
(traced), update the personal and (nested, as in the source) global bests. -/
def psoParticleStep (measure : List Param → List ℚ) (objectives : List Objective)
    (w c1 c2 : ℚ) (paramCount : ℕ) (st : PsoSt) (i : ℕ) : PsoSt :=
  let upd := psoGeneLoop w c1 c2 paramCount (st.bestPositions.getD i [])
    st.globalBest (st.positions.getD i []) (st.velocities.getD i []) st.rng
  let newPos := upd.1
  let f := evaluateFitness measure objectives newPos
  let st1 := { st with positions := st.positions.set i newPos,
                       velocities := st.velocities.set i upd.2.1,
                       rng := upd.2.2, trace := st.trace ++ [newPos] }
  if f > st1.bestFitnesses.getD i 0 then
    let st2 := { st1 with bestPositions := st1.bestPositions.set i newPos,
                          bestFitnesses := st1.bestFitnesses.set i f }
    if (match st2.globalBestFitness with | none => true | some b => f > b) then
      { st2 with globalBest := newPos, globalBestFitness := some f }
    else st2
  else st1

/-- The swarm initialization of `optimizeParticleSwarm` (lines 131–143):
random position and velocity per particle, evaluate (traced), seed the bests. -/
def psoInit (measure : List Param → List ℚ) (objectives : List Objective)
    (params : List Param) (swarmSize : ℤ) (g : Rng) : PsoSt :=
  (List.range swarmSize.toNat).foldl
    (fun st _ =>
      let p := genRandomIndividual params st.rng
      let v := genRandomVelocity params p.2
      let f := evaluateFitness measure objectives p.1
      let st1 := { st with positions := st.positions ++ [p.1],
                           velocities := st.velocities ++ [v.1],
                           bestPositions := st.bestPositions ++ [p.1],
                           bestFitnesses := st.bestFitnesses ++ [f],
                           rng := v.2, trace := st.trace ++ [p.1] }
      if (match st1.globalBestFitness with | none => true | some b => f > b) then
        { st1 with globalBest := p.1, globalBestFitness := some f }
      else st1)
    { positions := [], velocities := [], bestPositions := [], bestFitnesses := [],
      globalBest := [], globalBestFitness := none, rng := g, trace := [] }

/-- `RFOptimizer::optimizeParticleSwarm`, returning the global best and the
fitness-call trace. -/
def optimizeParticleSwarm (measure : List Param → List ℚ)
    (objectives : List Objective) (params : List Param)
    (swarmSize iterations : ℤ) (w c1 c2 : ℚ) (g : Rng) :
    List Param × List (List Param) :=
  let st0 := psoInit measure objectives params swarmSize g
  let stN := (List.range iterations.toNat).foldl
    (fun st _ =>
      (List.range swarmSize.toNat).foldl
        (psoParticleStep measure objectives w c1 c2 params.length) st)
    st0
  (stN.globalBest, stN.trace)

/-- The rejection loop of `DifferentialEvolution::optimize` (lines 35–40)
choosing three indices distinct from each other and from `i`; the source
`do … while` can spin forever on an adversarial stream, so the model carries
fuel and reports `none` if it runs out (no fitness call happens either way). -/
def pickDistinct (popSize : ℤ) (i : ℤ) : ℕ → Rng → Option ((ℤ × ℤ × ℤ) × Rng)
  | 0, _ => none
  | fuel + 1, g =>
    let u1 := uniformInt g 0 (popSize - 1)
    let u2 := uniformInt u1.2 0 (popSize - 1)
    let u3 := uniformInt u2.2 0 (popSize - 1)
    let r1 := u1.1
    let r2 := u2.1
    let r3 := u3.1
    if r1 = r2 ∨ r2 = r3 ∨ r1 = r3 ∨ r1 = i ∨ r2 = i ∨ r3 = i then
      pickDistinct popSize i fuel u3.2
    else some ((r1, r2, r3), u3.2)

/-- The trial-vector construction of `DifferentialEvolution::optimize` (lines
43–60): per gene, with probability `CR` (or forced at gene `R`), set
`trial[j] = x_r1[j] + F·(x_r2[j] − x_r3[j])` and clamp it to the gene's
bounds.  (`Fdw` is the differential weight the source calls `F`.) -/
def deTrialGenes (paramCount : ℕ) (Fdw CR : ℚ) (xi x1 x2 x3 : List Param)
    (bigR : ℤ) (g : Rng) : List Param × Rng :=
  (List.range paramCount).foldl
    (fun acc (j : ℕ) =>
      let u := uniformDist acc.2 0 1
      if u.1 < CR ∨ (j : ℤ) = bigR then
        let tj := acc.1.getD j defaultParam
        let val := (x1.getD j defaultParam).currentValue +
          Fdw * ((x2.getD j defaultParam).currentValue -
            (x3.getD j defaultParam).currentValue)
        (acc.1.set j { tj with currentValue := clampQ val tj.minValue tj.maxValue }, u.2)
      else (acc.1, u.2))
    (xi, g)

/-- The differential-evolution working state. -/
structure DeSt where
  pop : List (List Param)
  fitness : List ℚ
  rng : Rng
  trace : List (List Param)

/-- One target-vector step of `DifferentialEvolution::optimize`: pick distinct
donors, build and clamp the trial, evaluate it (traced), greedy replace. -/
def deIndividualStep (measure : List Param → List ℚ) (objectives : List Objective)
    (paramCount : ℕ) (Fdw CR : ℚ) (popSize : ℤ) (pickFuel : ℕ)
    (st : DeSt) (i : ℕ) : DeSt :=
  match pickDistinct popSize (i : ℤ) pickFuel st.rng with
  | none => st
  | some (rs, g1) =>
    let uR := uniformInt g1 0 ((paramCount : ℤ) - 1)
    let trial := deTrialGenes paramCount Fdw CR (st.pop.getD i [])
      (st.pop.getD rs.1.toNat []) (st.pop.getD rs.2.1.toNat [])
      (st.pop.getD rs.2.2.toNat []) uR.1 uR.2
    let tf := evaluateFitness measure objectives trial.1
    let st1 := { st with rng := trial.2, trace := st.trace ++ [trial.1] }
    if tf > st1.fitness.getD i 0 then
      { st1 with pop := st1.pop.set i trial.1, fitness := st1.fitness.set i tf }
    else st1

/-- `DifferentialEvolution::optimize`, returning the best vector (first
maximal fitness, as `std::max_element`) and the fitness-call trace. -/
def optimizeDifferentialEvolution (measure : List Param → List ℚ)
    (objectives : List Objective) (params : List Param)
    (popSize generations : ℤ) (Fdw CR : ℚ) (pickFuel : ℕ) (g : Rng) :
    List Param × List (List Param) :=
  let init := (List.range popSize.toNat).foldl
    (fun (acc : DeSt) _ =>
      let rI := genRandomIndividual params acc.rng
      let f := evaluateFitness measure objectives rI.1
      { acc with pop := acc.pop ++ [rI.1], fitness := acc.fitness ++ [f],
                 rng := rI.2, trace := acc.trace ++ [rI.1] })
    { pop := [], fitness := [], rng := g, trace := [] }
  let stN := (List.range generations.toNat).foldl
    (fun st _ =>
      (List.range popSize.toNat).foldl
        (deIndividualStep measure objectives params.length Fdw CR popSize pickFuel) st)
    init
  let bestIdx := (stN.fitness.enum).foldl
    (fun (b : ℕ × ℚ) p => if p.2 > b.2 then p else b)
    (0, stN.fitness.headD 0)
  (stN.pop.getD bestIdx.1 [], stN.trace)

/-- `SimulatedAnnealing::generateNeighbor`: per parameter, perturb by a
uniform draw in `±(max−min)·temp/100` and clamp into bounds. -/
def genNeighbor (temp : ℚ) : List Param → Rng → List Param × Rng
  | [], g => ([], g)
  | p :: ps, g =>
    let range := (p.maxValue - p.minValue) * temp / 100
    let u := uniformDist g (-range) range
    let nv := clampQ (p.currentValue + u.1) p.minValue p.maxValue
    let rest := genNeighbor temp ps u.2
    ({ p with currentValue := nv } :: rest.1, rest.2)

/-- The simulated-annealing working state: current solution and energy, best
solution and energy, RNG, trace. -/
structure SaSt where
  current : List Param
  currentEnergy : ℚ
  best : List Param
  bestEnergy : ℚ
  rng : Rng
  trace : List (List Param)

/-- One Metropolis step of `SimulatedAnnealing::optimize` (lines 98–118):
generate a neighbor, evaluate it (traced), accept when `Δe < 0` (the `||`
short-circuits, consuming no draw) or when a fresh draw is below
`exp(−Δe/temp)` (`expQ` models `std::exp`). -/
def saStep (measure : List Param → List ℚ) (objectives : List Objective)
    (expQ : ℚ → ℚ) (temp : ℚ) (st : SaSt) : SaSt :=
  let nb := genNeighbor temp st.current st.rng
  let nE := -evaluateFitness measure objectives nb.1
  let deltaE := nE - st.currentEnergy
  let acceptProb := expQ (-deltaE / temp)
  let accepted :=
    if deltaE < 0 then (true, nb.2)
    else
      let u := uniformDist nb.2 0 1
      (decide (u.1 < acceptProb), u.2)
  let st1 := { st with rng := accepted.2, trace := st.trace ++ [nb.1] }
  if accepted.1 then
    let st2 := { st1 with current := nb.1, currentEnergy := nE }
    if st2.currentEnergy < st2.bestEnergy then
      { st2 with best := st2.current, bestEnergy := st2.currentEnergy }
    else st2
  else st1

/-- The cooling loop of `SimulatedAnnealing::optimize`: `iterations_per_temp`
Metropolis steps, then `temp *= cooling_rate`, while `temp > final_temp`; the
source loop need not terminate (e.g. cooling rate ≥ 1), so the model carries
fuel. -/
def saCoolLoop (measure : List Param → List ℚ) (objectives : List Objective)
    (expQ : ℚ → ℚ) (finalTemp coolingRate : ℚ) (iterationsPerTemp : ℤ) :
    ℕ → ℚ → SaSt → SaSt
  | 0, _, st => st
  | fuel + 1, temp, st =>
    if temp > finalTemp then
      let st1 := (List.range iterationsPerTemp.toNat).foldl
        (fun s _ => saStep measure objectives expQ temp s) st
      saCoolLoop measure objectives expQ finalTemp coolingRate iterationsPerTemp
        fuel (temp * coolingRate) st1
    else st

/-- `SimulatedAnnealing::optimize`, returning the best vector and the
fitness-call trace. -/
def optimizeSimulatedAnnealing (measure : List Param → List ℚ)
    (objectives : List Objective) (expQ : ℚ → ℚ) (params : List Param)
    (initialTemp finalTemp coolingRate : ℚ) (iterationsPerTemp : ℤ)
    (coolFuel : ℕ) (g : Rng) : List Param × List (List Param) :=
  let c := genRandomIndividual params g
  let e := -evaluateFitness measure objectives c.1
  let st0 : SaSt := { current := c.1, currentEnergy := e, best := c.1,
                      bestEnergy := e, rng := c.2, trace := [c.1] }
  let stN := saCoolLoop measure objectives expQ finalTemp coolingRate
    iterationsPerTemp coolFuel initialTemp st0
  (stN.best, stN.trace)

/-- Insert index `i` into an index list already sorted ascending by
`values[·]` (strict comparator, as `std::sort` is given; ties keep the
existing element first). -/
def insertSorted (values : List ℚ) (i : ℕ) : List ℕ → List ℕ
  | [] => [i]
  | j :: rest =>
    if values.getD i 0 < values.getD j 0 then i :: j :: rest
    else j :: insertSorted values i rest

/-- The `order` array of `NelderMead::optimize`: indices `0 … n−1` sorted
ascending by `values`. -/
def sortIndices (values : List ℚ) : List ℕ :=
  (List.range values.length).foldl (fun acc i => insertSorted values i acc) []

/-- The centroid computation of `NelderMead::optimize` (lines 199–208): start
from the best point, add the current values of the points `order[1]` through
`order[size−2]`, then divide every current value by `order.size() − 1`. -/
def nmCentroid (paramCount : ℕ) (simplex : List (List Param)) (order : List ℕ) :
    List Param :=
  let c0 := simplex.getD (order.headD 0) []
  let summed := ((order.drop 1).take (order.length - 2)).foldl
    (fun cen oi =>
      (List.range paramCount).foldl
        (fun cen2 j =>
          let cj := cen2.getD j defaultParam
          let sj := (simplex.getD oi []).getD j defaultParam
          cen2.set j { cj with currentValue := cj.currentValue + sj.currentValue })
        cen)
    c0
  summed.map (fun p => { p with currentValue := p.currentValue / ((order.length : ℚ) - 1) })

/-- `NelderMead::reflect(centroid, point, coefficient)`: per gene,
`centroid + coef·(centroid − point)`, clamped into the gene's bounds. -/
def nmReflect (paramCount : ℕ) (centroid point : List Param) (coef : ℚ) :
    List Param :=
  (List.range paramCount).foldl
    (fun res j =>
      let cj := centroid.getD j defaultParam
      let pj := point.getD j defaultParam
      let rj := res.getD j defaultParam
      let v := cj.currentValue + coef * (cj.currentValue - pj.currentValue)
      res.set j { rj with currentValue := clampQ v rj.minValue rj.maxValue })
    centroid

/-- The Nelder-Mead working state. -/
structure NmSt where
  simplex : List (List Param)
  values : List ℚ
  trace : List (List Param)

/-- The shrink step of `NelderMead::optimize` (lines 243–251): for every
`i ≥ 1`, move `simplex[i]` gene-wise to
`simplex[0] + σ·(simplex[i] − simplex[0])` — the source applies no clamping
here — and re-evaluate it (traced).  `simplex[0]` is the positional first
point, not the best by `order`. -/
def nmShrink (measure : List Param → List ℚ) (objectives : List Objective)
    (paramCount : ℕ) (sigma : ℚ) (st : NmSt) : NmSt :=
  (List.range (st.simplex.length - 1)).foldl
    (fun acc k =>
      let i := k + 1
      let s0 := acc.simplex.getD 0 []
      let si := acc.simplex.getD i []
      let si2 := (List.range paramCount).foldl
        (fun v j =>
          let vj := v.getD j defaultParam
          let s0j := s0.getD j defaultParam
          let nv := s0j.currentValue + sigma * (vj.currentValue - s0j.currentValue)
          v.set j { vj with currentValue := nv })
        si
      let f := evaluateFitness measure objectives si2
      { simplex := acc.simplex.set i si2, values := acc.values.set i (-f),
        trace := acc.trace ++ [si2] })
    st

/-- One pass of the `NelderMead::optimize` main loop (lines 186–256): sort,
convergence check, then reflection / expansion / contraction / shrink exactly
as the branch conditions of the source (every candidate evaluation is
traced). -/
def nmIteration (measure : List Param → List ℚ) (objectives : List Objective)
    (paramCount : ℕ) (alpha gamma rho sigma tolerance : ℚ) (st : NmSt) :
    NmSt × Bool :=
  let order := sortIndices st.values
  let range := st.values.getD (order.getLastD 0) 0 - st.values.getD (order.headD 0) 0
  if range < tolerance then (st, true)
  else
    let centroid := nmCentroid paramCount st.simplex order
    let worstIdx := order.getLastD 0
    let worst := st.simplex.getD worstIdx []
    let reflected := nmReflect paramCount centroid worst alpha
    let rv := -evaluateFitness measure objectives reflected
    let st1 := { st with trace := st.trace ++ [reflected] }
    let secondWorstVal := st1.values.getD (order.getD (order.length - 2) 0) 0
    let bestVal := st1.values.getD (order.headD 0) 0
    if rv < secondWorstVal ∧ rv ≥ bestVal then
      ({ st1 with simplex := st1.simplex.set worstIdx reflected,
                  values := st1.values.set worstIdx rv }, false)
    else if rv < bestVal then
      let expanded := nmReflect paramCount centroid worst gamma
      let ev := -evaluateFitness measure objectives expanded
      let st2 := { st1 with trace := st1.trace ++ [expanded] }
      if ev < rv then
        ({ st2 with simplex := st2.simplex.set worstIdx expanded,
                    values := st2.values.set worstIdx ev }, false)
      else
        ({ st2 with simplex := st2.simplex.set worstIdx reflected,
                    values := st2.values.set worstIdx rv }, false)
    else
      let contracted := nmReflect paramCount centroid worst (-rho)
      let cv := -evaluateFitness measure objectives contracted
      let st2 := { st1 with trace := st1.trace ++ [contracted] }
      if cv < st2.values.getD worstIdx 0 then
        ({ st2 with simplex := st2.simplex.set worstIdx contracted,
                    values := st2.values.set worstIdx cv }, false)
      else
        (nmShrink measure objectives paramCount sigma st2, false)

/-- The `while (iterations < max_iterations)` loop of `NelderMead::optimize`
(structural on the iteration budget; `true` from an iteration is the
convergence `break`). -/
def nmLoop (measure : List Param → List ℚ) (objectives : List Objective)
    (paramCount : ℕ) (alpha gamma rho sigma tolerance : ℚ) :
    ℕ → NmSt → NmSt
  | 0, st => st
  | fuel + 1, st =>
    let step := nmIteration measure objectives paramCount alpha gamma rho sigma
      tolerance st
    if step.2 then step.1
    else nmLoop measure objectives paramCount alpha gamma rho sigma tolerance
      fuel step.1

/-- `NelderMead::optimize`: random initial point, axis-offset initial simplex
(each offset by 5% of the gene's range and clamped), the main loop, then the
point of first-minimal value (`std::min_element`).  Returns the best vector
and the fitness-call trace. -/
def optimizeNelderMead (measure : List Param → List ℚ)
    (objectives : List Objective) (params : List Param)
    (alpha gamma rho sigma tolerance : ℚ) (maxIterations : ℤ) (g : Rng) :
    List Param × List (List Param) :=
  let p0 := genRandomIndividual params g
  let v0 := -evaluateFitness measure objectives p0.1
  let st0 : NmSt := (List.range params.length).foldl
    (fun st i =>
      let base := st.simplex.getD 0 []
      let pi0 := base.getD i defaultParam
      let moved := pi0.currentValue + 1 / 20 * (pi0.maxValue - pi0.minValue)
      let clamped := clampQ moved pi0.minValue pi0.maxValue
      let pt := base.set i { pi0 with currentValue := clamped }
      let f := evaluateFitness measure objectives pt
      { simplex := st.simplex ++ [pt], values := st.values ++ [-f],
        trace := st.trace ++ [pt] })
    { simplex := [p0.1], values := [v0], trace := [p0.1] }
  let stN := nmLoop measure objectives params.length alpha gamma rho sigma
    tolerance maxIterations.toNat st0
  let bestIdx := (stN.values.enum).foldl
    (fun (b : ℕ × ℚ) p => if p.2 < b.2 then p else b)
    (0, stN.values.headD 0)
  (stN.simplex.getD bestIdx.1 [], stN.trace)

/-!  ### Concrete circuits used by the claims -/

/-- A placeholder component for safe list indexing in theorem statements. -/
def defaultComponent : Component := mkResistor (r"none") 0

/-- The series voltage-divider of claim C1 and §8 of the spec: a 10 V DC
source across `R1 = 1 kΩ` in series with `R2 = 2 kΩ`.  Wiring: `R1` is added
first (creating nodes 0 and 1), `R2` with its first pin on node 1 (creating
node 2), then the source with its pins on nodes 0 and 2; node 2 — the
source's return pin — is the ground node, and it is the last-created node, so
the analyzer's write-back (which assumes the excluded node is the last one)
lines up. -/
def dividerCircuit : AnalyzerState :=
  let s1 := addComponent initState (mkResistor (r"R1") 1000)
  let s2 := addComponent s1 (connectPin (mkResistor (r"R2") 2000) 0 1)
  let s3 := addComponent s2
    (connectPin (connectPin (mkVoltageSource (r"V1") 10 0) 0 0) 1 2)
  setGroundNode s3 2

/-- Modelled from the spec: §3 of the spec defines the circuit's
voltage-source list as "the subset of Components that are ideal voltage
sources (each contributes one extra current unknown to the MNA system)"; no
code in the repository performs that registration (`addComponent` never
pushes into `voltage_sources_`), so this state populates the list as the spec
prescribes, exercising the otherwise-dead source-stamping code of
`buildMNA`/`solve`. -/
def dividerCircuitRegistered : AnalyzerState :=
  { dividerCircuit with voltageSources :=
      dividerCircuit.components.filter (fun c => c.kind = CompKind.vsource) }

/-- The claim-C2 circuit with an isolated island: resistor `Ra` between nodes
0 and 1 (no path to ground), resistor `Rb` between nodes 2 and 3, ground at
node 3 (created last).  Its MNA matrix has a singular 2×2 block for the
island. -/
def isolatedCircuit : AnalyzerState :=
  let s1 := addComponent initState (mkResistor (r"Ra") 1000)
  let s2 := addComponent s1 (mkResistor (r"Rb") 2000)
  setGroundNode s2 3

/-- The claim-C5 circuit, on which `setGroundNode` is never called: a
resistor between nodes 0 and 1 and a voltage source between node 1 and a
fresh node 2.  (The source is skipped by the conductance loop, so no matrix
index reaches the out-of-range last node and the run is well-defined even in
the C++.) -/
def ungroundedCircuit : AnalyzerState :=
  let s1 := addComponent initState (mkResistor (r"R1") 1000)
  addComponent s1 (connectPin (mkVoltageSource (r"V1") 5 0) 0 1)

/-- The claim-C6 circuit: a single 10 V DC voltage source, its second node
grounded. -/
def transientCircuit : AnalyzerState :=
  setGroundNode (addComponent initState (mkVoltageSource (r"V1") 10 0)) 1

/-- The node-voltage write-back that every reachable `analyze` call performs:
since `voltage_sources_` is never populated, the assembled right-hand side is
identically zero, so the solver output is the zero vector and every solved
position (all but the last) becomes 0 while the last keeps its old value. -/
def zeroWriteBack (nodes : List CQ) : List CQ :=
  nodes.mapIdx (fun i v => if i < nodes.length - 1 then 0 else v)

/-!  ### Bounds conformity (claim C9) -/

/-- A parameter whose current value respects its own bounds. -/
def paramInBounds (p : Param) : Prop :=
  p.minValue ≤ p.currentValue ∧ p.currentValue ≤ p.maxValue

instance (p : Param) : Decidable (paramInBounds p) := by
  unfold paramInBounds
  infer_instance

/-- A vector that structurally matches the optimizer's parameter list: same
length and, position by position, the same bounds. -/
def boundsMatch (params v : List Param) : Prop :=
  v.length = params.length ∧
  ∀ i, i < v.length →
    (v.getD i defaultParam).minValue = (params.getD i defaultParam).minValue ∧
    (v.getD i defaultParam).maxValue = (params.getD i defaultParam).maxValue

/-- A parameter vector as handed to the measurement/fitness function:
structurally matching, with every current value within its bounds. -/
def conformsTo (params v : List Param) : Prop :=
  boundsMatch params v ∧ ∀ i, i < v.length → paramInBounds (v.getD i defaultParam)

instance (params v : List Param) : Decidable (boundsMatch params v) := by
  unfold boundsMatch
  infer_instance

instance (params v : List Param) : Decidable (conformsTo params v) := by
  unfold conformsTo
  infer_instance

/-- Well-formed optimizer parameters: every bound interval is nonempty
(`min ≤ max`). -/
def paramsOK (params : List Param) : Prop :=
  ∀ p, p ∈ params → p.minValue ≤ p.maxValue

instance (params : List Param) : Decidable (paramsOK params) := by
  unfold paramsOK
  infer_instance

/-- A raw-draw stream whose every draw lies in `[0,1]` (the guarantee of
`std::uniform_real_distribution`). -/
def rngOK (g : Rng) : Prop :=
  ∀ n, 0 ≤ g n ∧ g n ≤ 1

/-- The exact rational values of the AC sample exponents when no division by
zero occurs (`points ≥ 2`). -/
def acExponentsQ (logStart logStop : ℚ) (points : ℤ) : List ℚ :=
  (List.range points.toNat).map
    (fun (i : ℕ) => logStart + (i : ℚ) * ((logStop - logStart) / ((points : ℚ) - 1)))

/-- One optimization parameter `x ∈ [0, 1]` starting at `0`, for the
Nelder-Mead run below. -/
def cxParams : List Param := [⟨(r"x"), 0, 1, 0⟩]

/-- A single maximize objective of weight 1. -/
def cxObjectives : List Objective := [⟨(r"obj"), ObjKind.maximize, 0, 1⟩]

/-- A measurement function steering the Nelder-Mead run below into its shrink
branch on the first iteration (every candidate scores worse than both initial
simplex points, so reflection and contraction are both rejected). -/
def cxMeasure : List Param → List ℚ := fun v =>
  let c := (v.headD defaultParam).currentValue
  [if c = 0 then 0 else if c = 1 / 40 then -2 else -1]

/-- The all-zeros draw stream (a legal output of
`std::uniform_real_distribution(0, 1)`). -/
def cxRng : Rng := fun _ => 0

/-- A one-iteration Nelder-Mead run with shrink coefficient `σ = 30` (the
constructor caps no coefficient): `α = 1`, `γ = 2`, `ρ = 1/2`, `σ = 30`,
tolerance `10⁻⁶`, one iteration. -/
def cxRun : List Param × List (List Param) :=
  optimizeNelderMead cxMeasure cxObjectives cxParams 1 2 (1 / 2) 30
    (1 / 1000000) 1 cxRng

/-!  ## Theorems

The rational arithmetic of Batteries is `@[irreducible]`; the concrete
evaluations below (`decide`/`rfl` on closed runs of the embedded code) need it
reducible again for elaboration — the kernel itself checks them either way. -/

set_option allowUnsafeReducibility true

attribute [local semireducible] Rat.add Rat.mul Rat.inv Rat.sub

theorem CQ.ext2 {z w : CQ} (h1 : z.re = w.re) (h2 : z.im = w.im) : z = w := by
  cases z
  cases w
  cases h1
  cases h2
  rfl

@[simp] theorem CQ.zero_re : (0 : CQ).re = 0 := rfl

@[simp] theorem CQ.zero_im : (0 : CQ).im = 0 := rfl

@[simp] theorem CQ.mul_zero_right (z : CQ) : z.mul 0 = 0 := by
  apply CQ.ext2 <;> simp [CQ.mul]

@[simp] theorem CQ.mul_zero_left (z : CQ) : CQ.mul 0 z = 0 := by
  apply CQ.ext2 <;> simp [CQ.mul]

@[simp] theorem CQ.add_zero_zero : CQ.add 0 0 = 0 := by
  apply CQ.ext2 <;> simp [CQ.add]

@[simp] theorem CQ.sub_zero_zero : CQ.sub 0 0 = 0 := by
  apply CQ.ext2 <;> simp [CQ.sub]

@[simp] theorem CQ.div_zero_left (z : CQ) : CQ.div 0 z = 0 := by
  simp [CQ.div]

theorem dotCQ_replicate_zero (xs : List CQ) (n : ℕ) :
    dotCQ xs (List.replicate n 0) = 0 := by
  induction xs generalizing n with
  | nil => simp [dotCQ]
  | cons x xs ih =>
    cases n with
    | zero => simp [dotCQ]
    | succ m =>
      have h := ih m
      simp only [dotCQ, List.replicate_succ, List.zipWith_cons_cons, List.foldr_cons] at h ⊢
      rw [h, CQ.mul_zero_right, CQ.add_zero_zero]

theorem findPivot_mem {rows : List (List CQ × CQ)} {p : List CQ × CQ}
    {rest : List (List CQ × CQ)} (h : findPivot rows = some (p, rest)) :
    p ∈ rows ∧ ∀ r, r ∈ rest → r ∈ rows := by
  induction rows generalizing p rest with
  | nil => simp [findPivot] at h
  | cons r rs ih =>
    rw [findPivot] at h
    by_cases hr : r.1.headD 0 ≠ 0
    · rw [if_pos hr] at h
      obtain ⟨rfl, rfl⟩ : r = p ∧ rs = rest := by
        constructor <;> { injection h with h'; cases h'; rfl }
      exact ⟨List.mem_cons_self _ _, fun x hx => List.mem_cons_of_mem _ hx⟩
    · rw [if_neg hr] at h
      cases hfp : findPivot rs with
      | none => rw [hfp] at h; exact absurd h (by simp)
      | some pr =>
        rw [hfp] at h
        obtain ⟨q, qrest⟩ := pr
        have hq := ih hfp
        injection h with h'
        have h1 : q = p := congrArg Prod.fst h'
        have h2 : r :: qrest = rest := congrArg Prod.snd h'
        subst h1
        subst h2
        refine ⟨List.mem_cons_of_mem _ hq.1, ?_⟩
        intro x hx
        rcases List.mem_cons.mp hx with h3 | h3
        · exact h3 ▸ List.mem_cons_self _ _
        · exact List.mem_cons_of_mem _ (hq.2 x h3)

theorem gaussAux_zero (n : ℕ) (rows : List (List CQ × CQ))
    (h : ∀ r, r ∈ rows → r.2 = 0) :
    gaussAux n rows = List.replicate n 0 := by
  induction n generalizing rows with
  | zero => rfl
  | succ m ih =>
    rw [gaussAux]
    cases hfp : findPivot rows with
    | none =>
      show 0 :: gaussAux m (rows.map fun r => (r.1.tail, r.2)) = List.replicate (m + 1) 0
      rw [List.replicate_succ]
      congr 1
      apply ih
      intro r hr
      obtain ⟨r0, hr0, rfl⟩ := List.mem_map.mp hr
      exact h r0 hr0
    | some pr =>
      obtain ⟨p, rest⟩ := pr
      have hmem := findPivot_mem hfp
      have hp : p.2 = 0 := h p hmem.1
      have hxs : gaussAux m (rest.map (elimRow p)) = List.replicate m 0 := by
        apply ih
        intro r hr
        obtain ⟨r0, hr0, rfl⟩ := List.mem_map.mp hr
        have : r0.2 = 0 := h r0 (hmem.2 r0 hr0)
        simp [elimRow, this, hp]
      show ((p.2.sub (dotCQ p.1.tail (gaussAux m (rest.map (elimRow p))))).div
        (p.1.headD 0)) :: gaussAux m (rest.map (elimRow p)) = List.replicate (m + 1) 0
      rw [List.replicate_succ, hxs, hp, dotCQ_replicate_zero, CQ.sub_zero_zero,
        CQ.div_zero_left]

theorem replicate_zero_getD (n i : ℕ) : (List.replicate n (0 : CQ)).getD i 0 = 0 := by
  rcases lt_or_ge i n with h | h
  · rw [List.getD_eq_getElem _ _ (by simpa using h)]
    simp
  · rw [List.getD_eq_default _ _ (by simpa using h)]

theorem gaussSolve_zero_rhs (sz : ℕ) (A : ℕ → ℕ → CQ) :
    gaussSolve sz (systemRows A (fun _ => 0) sz) = List.replicate sz 0 := by
  apply gaussAux_zero
  intro r hr
  simp only [systemRows, List.mem_map] at hr
  obtain ⟨i, _, rfl⟩ := hr
  rfl

/-- In every reachable analyzer state the voltage-source list is empty
(`addComponent` never pushes into it), the assembled right-hand side is
therefore identically zero, and `analyze` writes the zero solver output to
every solved node position — the last node keeps its stored voltage. -/
theorem analyze_writes_zeros (eF sF cF siF : ℚ → ℚ) (piQ f : ℚ)
    (st : AnalyzerState) (h : st.voltageSources = []) :
    (analyze eF sF cF siF piQ f st).nodes = zeroWriteBack st.nodes := by
  unfold analyze
  simp only [buildMNA, h, List.foldl_nil, List.length_nil, zeroWriteBack]
  simp only [updateComponents, writeBack]
  rw [gaussSolve_zero_rhs]
  congr 1
  funext i v
  split
  · exact replicate_zero_getD _ _
  · rfl

theorem analyze_voltageSources_nil (eF sF cF siF : ℚ → ℚ) (piQ f : ℚ)
    (st : AnalyzerState) (h : st.voltageSources = []) :
    (analyze eF sF cF siF piQ f st).voltageSources = [] := by
  unfold analyze
  simp only [updateComponents, writeBack, h, List.mapIdx_nil]

theorem zeroWriteBack_idem (l : List CQ) :
    zeroWriteBack (zeroWriteBack l) = zeroWriteBack l := by
  unfold zeroWriteBack
  simp only [List.length_mapIdx]
  apply List.ext_getElem
  · simp
  · intro i h1 h2
    simp only [List.getElem_mapIdx]
    by_cases hc : i < l.length - 1 <;> simp [hc]

/-- C1: for the spec's own example — a 10 V DC source across series 1 kΩ and
2 kΩ resistors with the source's return pin grounded — `analyze(0)` is
claimed to put 6.667 V on the midpoint node.  The code disagrees:
`addComponent` never registers the source in `voltage_sources_`, so the MNA
right-hand side is identically zero and the midpoint solves to 0 V.  The
second conjunct evaluates the same `buildMNA`/`solve` machinery on the state
whose source list is populated the way §3 of the spec prescribes
(`dividerCircuitRegistered`): the otherwise-dead source-stamping code then
yields exactly 20/3 V = 6.667 V, confirming that the spec describes the
intended behavior and the missing registration is the slip. -/
theorem C1_divider_midpoint :
    (analyze (fun q => q) (fun q => q) (fun q => q) (fun q => q) 0 0
      dividerCircuit).nodes.getD 1 0 = 0 ∧
    (analyze (fun q => q) (fun q => q) (fun q => q) (fun q => q) 0 0
      dividerCircuitRegistered).nodes.getD 1 0 = ⟨20 / 3, 0⟩ := by
  exact ⟨by decide, by decide⟩

/-- C2 counterexample: the claim says a circuit with an isolated node (no
return path to ground) makes `analyze` fail with `SingularMatrixError` rather
than writing voltages back.  `isolatedCircuit` has a floating two-node island
and a singular MNA matrix, yet `analyze` — a total function, mirroring the
C++ whose `solve` calls Eigen's QR solve with no error path, no exception and
no `SingularMatrixError` type anywhere in the repository — completes and
writes a voltage (0 V) to every node, the isolated ones included. -/
theorem C2_counterexample :
    getNodeVoltages (analyze (fun q => q) (fun q => q) (fun q => q) (fun q => q) 0 0
      isolatedCircuit) = [0, 0, 0, 0] := by
  rfl

/-- C2 (amended): `analyze` performs no singular-matrix detection and has no
failure path: for every circuit state (with the voltage-source list empty, as
it is in every reachable state) and every frequency, the solver output — the
zero vector, since the assembled right-hand side is identically zero — is
unconditionally written back to the nodes, singular matrix or not. -/
theorem C2_no_singularity_detection (eF sF cF siF : ℚ → ℚ) (piQ f : ℚ)
    (st : AnalyzerState) (h : st.voltageSources = []) :
    getNodeVoltages (analyze eF sF cF siF piQ f st) = zeroWriteBack st.nodes :=
  analyze_writes_zeros eF sF cF siF piQ f st h

theorem C2_witness :
    getNodeVoltages (analyze (fun q => q) (fun q => q) (fun q => q) (fun q => q) 0 5
      isolatedCircuit) = zeroWriteBack isolatedCircuit.nodes :=
  C2_no_singularity_detection (fun q => q) (fun q => q) (fun q => q) (fun q => q) 0 5
    isolatedCircuit rfl

/-- C3: calling `analyze(f)` twice in succession with no intervening mutation
yields identical node voltages; the hypothesis `voltage_sources_ = []` holds
in every reachable state because `addComponent` never populates that list.
(Both calls write the zero solver output to every solved position and leave
the last node alone, so the voltage vector is a fixed point after one call;
the state mutations `updateState` performs inside `analyze` — source clocks,
capacitor charge — do not feed back into the voltages.) -/
theorem C3_analyze_idempotent (eF sF cF siF : ℚ → ℚ) (piQ f : ℚ)
    (st : AnalyzerState) (h : st.voltageSources = []) :
    getNodeVoltages (analyze eF sF cF siF piQ f (analyze eF sF cF siF piQ f st)) =
      getNodeVoltages (analyze eF sF cF siF piQ f st) := by
  have h2 : (analyze eF sF cF siF piQ f st).voltageSources = [] :=
    analyze_voltageSources_nil eF sF cF siF piQ f st h
  show (analyze eF sF cF siF piQ f (analyze eF sF cF siF piQ f st)).nodes =
    (analyze eF sF cF siF piQ f st).nodes
  rw [analyze_writes_zeros eF sF cF siF piQ f _ h2,
    analyze_writes_zeros eF sF cF siF piQ f st h, zeroWriteBack_idem]

theorem C3_witness :
    getNodeVoltages (analyze (fun q => q) (fun q => q) (fun q => q) (fun q => q) 0 0
        (analyze (fun q => q) (fun q => q) (fun q => q) (fun q => q) 0 0 dividerCircuit)) =
      getNodeVoltages (analyze (fun q => q) (fun q => q) (fun q => q) (fun q => q) 0 0
        dividerCircuit) :=
  C3_analyze_idempotent (fun q => q) (fun q => q) (fun q => q) (fun q => q) 0 0
    dividerCircuit rfl

/-- C5 counterexample: the claim says invoking `analyze()` with no ground
node set fails immediately with `TopologyError`.  On `ungroundedCircuit` —
whose `ground_node_` was never set — `analyze` performs no check of any kind
(no `TopologyError` exists anywhere in the repository), proceeds into
assembly and solve, and completes normally, writing 0 V to the solved
nodes. -/
theorem C5_counterexample :
    ungroundedCircuit.groundNode = none ∧
    getNodeVoltages (analyze (fun q => q) (fun q => q) (fun q => q) (fun q => q) 0 0
      ungroundedCircuit) = [0, 0, 0] := by
  exact ⟨rfl, by rfl⟩

/-- C5 (amended): `analyze` never checks for a ground node and has no failure
path: with no ground set (and the voltage-source list empty, as in every
reachable state) it treats every node as a regular unknown — `getNodeIndex`
returns −1 for no node — assembles and solves the system, and writes the
solver output back exactly as in the grounded case. -/
theorem C5_no_ground_check (eF sF cF siF : ℚ → ℚ) (piQ f : ℚ)
    (st : AnalyzerState) (_hg : st.groundNode = none)
    (h : st.voltageSources = []) :
    getNodeVoltages (analyze eF sF cF siF piQ f st) = zeroWriteBack st.nodes :=
  analyze_writes_zeros eF sF cF siF piQ f st h

theorem C5_witness :
    ungroundedCircuit.groundNode = none ∧
    getNodeVoltages (analyze (fun q => q) (fun q => q) (fun q => q) (fun q => q) 0 7
      ungroundedCircuit) = zeroWriteBack ungroundedCircuit.nodes :=
  ⟨rfl, C5_no_ground_check (fun q => q) (fun q => q) (fun q => q) (fun q => q) 0 7
    ungroundedCircuit rfl rfl⟩

/-- C6: the claim (and §4.1/§4.3 of the spec) require each transient step to
invoke exactly one state update with timestep `dt` per component, never
twice for the same step.  The code violates this: `performTransient` calls
`analyze()`, which itself ends in `updateComponents()` — one
`updateState(timestep_)` per component with the analyzer's fixed
`timestep_ = 1e-6` member — and then calls `updateState(dt)` again on every
component.  Evaluated at `performTransient(stopTime = 1, dt = 1)` on a
circuit holding a single DC voltage source: after the single step the
source's internal clock reads `1 + 1e-6` (two updates, one of them with the
wrong timestep) instead of the `1.0` a single `updateState(dt)` would give;
the analyzer clock itself reads 1 as specified. -/
theorem C6_transient_double_update :
    ((performTransient (fun q => q) (fun q => q) (fun q => q) (fun q => q) 0 1 1
      transientCircuit).components.headD defaultComponent).currentTime =
      1000001 / 1000000 ∧
    (performTransient (fun q => q) (fun q => q) (fun q => q) (fun q => q) 0 1 1
      transientCircuit).time = 1 := by
  exact ⟨by decide, by decide⟩

/-- C4 counterexample: the claim covers "every positive requested point
count", but at `points = 1` the source computes
`step = (log_stop - log_start) / (points - 1)`, a division by zero: with
`fStart = fStop = 10` (both base-10 logarithms equal to 1) the step is
`0/0 = NaN`, the single sampled exponent is `log_start + 0·NaN = NaN`, and the
sampled frequency `10^NaN = NaN` — not `fStart`.  So the sweep does not
sample `fStart` as its first (and last) frequency. -/
theorem C4_counterexample :
    acExponents 1 1 1 = [F.nan] ∧ F.nan ≠ F.fin 1 := by
  constructor
  · decide
  · decide

theorem acExponents_eq_map (ls lt : ℚ) (points : ℤ) (h2 : 2 ≤ points) :
    acExponents ls lt points = (acExponentsQ ls lt points).map F.fin := by
  have hp : (2 : ℚ) ≤ (points : ℚ) := by exact_mod_cast h2
  have hne : ((points : ℚ) - 1) ≠ 0 := by intro h; nlinarith
  unfold acExponents acExponentsQ acStep
  rw [List.map_map]
  apply List.map_congr_left
  intro i _
  simp only [Function.comp, F.sub, F.neg, F.add, F.mul, F.div, if_neg hne]
  congr 1
  ring

/-- The fold of `performAC`'s recording loop over pairwise-distinct keys
appends one fresh map entry per sampled key. -/
theorem record_fold_nodup (volts : F → List CQ) (ks : List F)
    (m : List (F × List CQ)) (hdisj : ∀ k, k ∈ ks → ∀ pr, pr ∈ m → pr.1 ≠ k)
    (hnd : ks.Nodup) :
    ks.foldl (fun acc e => recordResponse acc e (volts e)) m =
      m ++ ks.map (fun e => (e, volts e)) := by
  induction ks generalizing m with
  | nil => simp
  | cons k ks ih =>
    simp only [List.foldl_cons, List.map_cons]
    have hstep : recordResponse m k (volts k) = m ++ [(k, volts k)] := by
      unfold recordResponse
      rw [if_neg]
      simp only [List.any_eq_true, not_exists, not_and]
      intro pr hpr
      simpa using hdisj k (List.mem_cons_self _ _) pr hpr
    rw [hstep, ih]
    · simp
    · intro k' hk' pr hpr
      rcases List.mem_append.mp hpr with hm | hm
      · exact hdisj k' (List.mem_cons_of_mem _ hk') pr hm
      · have hpr2 : pr = (k, volts k) := by simpa using hm
        subst hpr2
        intro heq
        have heq2 : k = k' := heq
        exact (List.nodup_cons.mp hnd).1 (by rw [heq2]; exact hk')
    · exact (List.nodup_cons.mp hnd).2

/-- C4: the AC sweep's sampling, corrected to `points ≥ 2` (the claim's
`points = 1` case divides by zero, see the counterexample).  In the log
domain (`10^·` is a strictly monotone bijection onto the positive
frequencies): the loop samples exactly `points` exponents, all finite with
the exact rational values `log_start + i·step`; the first equals
`log10 fStart` and the last equals `log10 fStop`; they are nondecreasing, and
strictly increasing when `fStart < fStop`, in which case the recording loop
stores exactly one node-voltage vector keyed by each sampled frequency, in
sweep order. -/
theorem C4_ac_sampling (volts : F → List CQ) (ls lt : ℚ) (points : ℤ)
    (h2 : 2 ≤ points) (hle : ls ≤ lt) :
    (acExponents ls lt points).length = points.toNat ∧
    acExponents ls lt points = (acExponentsQ ls lt points).map F.fin ∧
    (acExponentsQ ls lt points).getD 0 0 = ls ∧
    (acExponentsQ ls lt points).getD (points.toNat - 1) 0 = lt ∧
    (acExponentsQ ls lt points).Pairwise (· ≤ ·) ∧
    (ls < lt → (acExponentsQ ls lt points).Pairwise (· < ·)) ∧
    (ls < lt → performACRecord volts ls lt points =
      (acExponents ls lt points).map (fun e => (e, volts e))) := by
  have hp : (2 : ℚ) ≤ (points : ℚ) := by exact_mod_cast h2
  have hone : (1 : ℚ) < (points : ℚ) := by nlinarith
  have hpos : (0 : ℚ) < (points : ℚ) - 1 := by nlinarith
  have hne : ((points : ℚ) - 1) ≠ 0 := ne_of_gt hpos
  have htn : (2 : ℕ) ≤ points.toNat := by omega
  have hcast : ((points.toNat : ℚ)) = (points : ℚ) := by
    have := Int.toNat_of_nonneg (show (0 : ℤ) ≤ points by omega)
    exact_mod_cast congrArg (fun z : ℤ => (z : ℚ)) this
  have hlen : (acExponentsQ ls lt points).length = points.toNat := by
    simp only [acExponentsQ, List.length_map, List.length_range]
  refine ⟨?_, acExponents_eq_map ls lt points h2, ?_, ?_, ?_, ?_, ?_⟩
  · simp only [acExponents, List.length_map, List.length_range]
  · rw [List.getD_eq_getElem _ _ (by rw [hlen]; omega)]
    simp only [acExponentsQ, List.getElem_map, List.getElem_range]
    simp
  · rw [List.getD_eq_getElem _ _ (by rw [hlen]; omega)]
    simp only [acExponentsQ, List.getElem_map, List.getElem_range]
    have hc2 : (((points.toNat - 1 : ℕ) : ℚ)) = (points : ℚ) - 1 := by
      have h1 : (1 : ℕ) ≤ points.toNat := by omega
      push_cast [h1]
      rw [hcast]
    rw [hc2]
    field_simp
  · unfold acExponentsQ
    rw [List.pairwise_map]
    apply (List.pairwise_lt_range _).imp
    intro i j hij
    have hs : (0 : ℚ) ≤ (lt - ls) / ((points : ℚ) - 1) :=
      div_nonneg (by nlinarith) (le_of_lt hpos)
    have hij2 : (i : ℚ) ≤ (j : ℚ) := by exact_mod_cast le_of_lt hij
    nlinarith
  · intro hlt
    unfold acExponentsQ
    rw [List.pairwise_map]
    apply (List.pairwise_lt_range _).imp
    intro i j hij
    have hs : (0 : ℚ) < (lt - ls) / ((points : ℚ) - 1) :=
      div_pos (by nlinarith) hpos
    have hij2 : (i : ℚ) < (j : ℚ) := by exact_mod_cast hij
    nlinarith
  · intro hlt
    unfold performACRecord
    rw [record_fold_nodup volts _ [] (by simp)]
    · simp
    · rw [acExponents_eq_map ls lt points h2]
      apply List.Nodup.map
      · intro a b hab
        simpa using hab
      · apply List.Pairwise.imp (fun hab => ne_of_lt hab)
        unfold acExponentsQ
        rw [List.pairwise_map]
        apply (List.pairwise_lt_range _).imp
        intro i j hij
        have hs : (0 : ℚ) < (lt - ls) / ((points : ℚ) - 1) :=
          div_pos (by nlinarith) hpos
        have hij2 : (i : ℚ) < (j : ℚ) := by exact_mod_cast hij
        nlinarith

theorem C4_witness :
    (acExponents 0 3 4).length = (4 : ℤ).toNat ∧
    acExponents 0 3 4 = (acExponentsQ 0 3 4).map F.fin ∧
    (acExponentsQ 0 3 4).getD 0 0 = 0 ∧
    (acExponentsQ 0 3 4).getD ((4 : ℤ).toNat - 1) 0 = 3 ∧
    (acExponentsQ 0 3 4).Pairwise (· ≤ ·) ∧
    ((0 : ℚ) < 3 → (acExponentsQ 0 3 4).Pairwise (· < ·)) ∧
    ((0 : ℚ) < 3 → performACRecord (fun _ => []) 0 3 4 =
      (acExponents 0 3 4).map (fun e => (e, []))) :=
  C4_ac_sampling (fun _ => []) 0 3 4 (by decide) (by norm_num)

/-- C7 counterexample: the claim says `getImpedance` at the numerical edge
cases returns "a complex value of very large but finite magnitude, never NaN
or Inf".  The source of `Capacitor::getImpedance` reads
`if (frequency == 0) return Complex(INFINITY, 0);` — at f = 0 the returned
real part is IEEE +Inf, which is not finite, so an Inf does enter the value
handed to the solver. -/
theorem C7_counterexample :
    capacitorImpedanceF (F.fin 3) (F.fin 1) (F.fin 0) = ⟨F.pinf, F.fin 0⟩ ∧
    (capacitorImpedanceF (F.fin 3) (F.fin 1) (F.fin 0)).re.isFinite = false := by
  constructor <;> decide

/-- C7 (amended): the sentinels are infinite, not finite: for every
capacitance and every model of π, the capacitor's `getImpedance(0)` is
`Complex(INFINITY, 0)`; and for every exp/sqrt model agreeing with the real
functions at 0 (`exp 0 = 1`, `√0 = 0`), a diode with zero voltage across it
(equal finite pin voltages, constructor parameters is = 1e-12, vt = 0.026)
computes `id = 0` and returns `vt/0 = Complex(+Inf, 0)`.  Both sentinels are
the IEEE infinity: well-defined, not NaN — but of infinite, not "very large
but finite", magnitude. -/
theorem C7_infinite_sentinels (piF cap : F) (expFF sqrtFF : F → F)
    (hexp : expFF (F.fin 0) = F.fin 1) (hsqrt : sqrtFF (F.fin 0) = F.fin 0)
    (vre vim : ℚ) :
    capacitorImpedanceF piF cap (F.fin 0) = ⟨F.pinf, F.fin 0⟩ ∧
    diodeImpedanceF expFF sqrtFF (F.fin (1 / 1000000000000)) (F.fin (26 / 1000))
      ⟨F.fin vre, F.fin vim⟩ ⟨F.fin vre, F.fin vim⟩ = ⟨F.pinf, F.fin 0⟩ ∧
    F.pinf.isNan = false ∧ F.pinf.isFinite = false := by
  refine ⟨rfl, ?_, rfl, rfl⟩
  unfold diodeImpedanceF absCF CF.sub
  have hz : F.sub (F.fin vre) (F.fin vre) = F.fin 0 := by
    simp [F.sub, F.neg, F.add]
  have hz2 : F.sub (F.fin vim) (F.fin vim) = F.fin 0 := by
    simp [F.sub, F.neg, F.add]
  simp only [hz, hz2]
  have hm : F.mul (F.fin 0) (F.fin 0) = F.fin 0 := by simp [F.mul]
  have ha : F.add (F.fin 0) (F.fin 0) = F.fin 0 := by simp [F.add]
  simp only [hm, ha, hsqrt]
  have hdv : F.div (F.fin 0) (F.fin (26 / 1000)) = F.fin 0 := by
    simp [F.div]
  simp only [hdv, hexp]
  have hs1 : F.sub (F.fin 1) (F.fin 1) = F.fin 0 := by
    simp [F.sub, F.neg, F.add]
  simp only [hs1]
  have hmul0 : F.mul (F.fin (1 / 1000000000000)) (F.fin 0) = F.fin 0 := by
    simp [F.mul]
  simp only [hmul0]
  have hfin : F.div (F.fin (26 / 1000)) (F.fin 0) = F.pinf := by
    simp only [F.div, if_pos rfl]
    norm_num
  simp only [hfin]

theorem C7_witness :
    capacitorImpedanceF (F.fin 3) (F.fin 1) (F.fin 0) = ⟨F.pinf, F.fin 0⟩ ∧
    diodeImpedanceF (fun x => if x = F.fin 0 then F.fin 1 else F.nan)
      (fun x => if x = F.fin 0 then F.fin 0 else F.nan)
      (F.fin (1 / 1000000000000)) (F.fin (26 / 1000))
      ⟨F.fin 2, F.fin 5⟩ ⟨F.fin 2, F.fin 5⟩ = ⟨F.pinf, F.fin 0⟩ ∧
    F.pinf.isNan = false ∧ F.pinf.isFinite = false :=
  C7_infinite_sentinels (F.fin 3) (F.fin 1)
    (fun x => if x = F.fin 0 then F.fin 1 else F.nan)
    (fun x => if x = F.fin 0 then F.fin 0 else F.nan)
    (by decide) (by decide) 2 5

/-- C8: `StabilityAnalyzer::analyzeStability` reports
`unconditionally_stable = true` exactly when its computed Rollett K-factor
exceeds 1 and |Δ| < 1, for every two-port S-matrix; the source tests
`|Δ|² < 1` (`std::norm`), which is equivalent to `|Δ| < 1`.  Here `d` is
|Δ| (pinned by `d ≥ 0` and `d² = |S11·S22 − S21·S12|²`), `r` is
`√(|S21|²·|S12|²)` (pinned likewise and as the value the sqrt model returns),
and the second conjunct identifies the computed K-factor with Rollett's
formula `(1 − |S11|² − |S22|² + |Δ|²)/(2·√(|S21|²|S12|²))`. -/
theorem C8_stability_iff (sqrtF : ℚ → ℚ) (sp : SMatrix) (r d : ℚ)
    (_hr : 0 ≤ r) (_hr2 : r ^ 2 = sp.s21.normSq * sp.s12.normSq)
    (hsqrt : sqrtF (sp.s21.normSq * sp.s12.normSq) = r)
    (hd : 0 ≤ d)
    (hdsq : d ^ 2 = ((sp.s11.mul sp.s22).sub (sp.s21.mul sp.s12)).normSq) :
    ((analyzeStabilityS sqrtF sp).unconditionallyStable = true ↔
      ((analyzeStabilityS sqrtF sp).kFactor > 1 ∧ d < 1)) ∧
    (analyzeStabilityS sqrtF sp).kFactor =
      (1 - sp.s11.normSq - sp.s22.normSq + d ^ 2) / (2 * r) := by
  unfold analyzeStabilityS
  simp only [Bool.and_eq_true, decide_eq_true_eq]
  constructor
  · constructor
    · rintro ⟨h1, h2⟩
      exact ⟨h1, by nlinarith⟩
    · rintro ⟨h1, h2⟩
      exact ⟨h1, by nlinarith⟩
  · rw [hsqrt, hdsq]

theorem C8_witness :
    ((analyzeStabilityS (fun q => if q = 1 / 10000 then 1 / 100 else 0)
        ⟨⟨1 / 2, 0⟩, ⟨1 / 10, 0⟩, ⟨1 / 10, 0⟩, ⟨1 / 2, 0⟩⟩).unconditionallyStable = true ↔
      ((analyzeStabilityS (fun q => if q = 1 / 10000 then 1 / 100 else 0)
        ⟨⟨1 / 2, 0⟩, ⟨1 / 10, 0⟩, ⟨1 / 10, 0⟩, ⟨1 / 2, 0⟩⟩).kFactor > 1 ∧
        (6 : ℚ) / 25 < 1)) ∧
    (analyzeStabilityS (fun q => if q = 1 / 10000 then 1 / 100 else 0)
        ⟨⟨1 / 2, 0⟩, ⟨1 / 10, 0⟩, ⟨1 / 10, 0⟩, ⟨1 / 2, 0⟩⟩).kFactor =
      (1 - (CQ.mk (1 / 2) 0).normSq - (CQ.mk (1 / 2) 0).normSq + (6 / 25 : ℚ) ^ 2) /
        (2 * (1 / 100)) :=
  C8_stability_iff (fun q => if q = 1 / 10000 then 1 / 100 else 0)
    ⟨⟨1 / 2, 0⟩, ⟨1 / 10, 0⟩, ⟨1 / 10, 0⟩, ⟨1 / 2, 0⟩⟩ (1 / 100) (6 / 25)
    (by norm_num) (by decide) (by decide) (by norm_num) (by decide)

theorem lookup_map_replace_none (ps : List (String × ℚ)) (other nm : String)
    (v : ℚ) (hne : other ≠ nm) (h : ps.lookup nm = none) :
    (ps.map (fun p => if p.1 = other then (other, v) else p)).lookup nm = none := by
  rw [List.lookup_eq_none_iff] at h ⊢
  intro p hp
  obtain ⟨q, hq, rfl⟩ := List.mem_map.mp hp
  by_cases ho : q.1 = other
  · rw [if_pos ho]
    simp only [bne_iff_ne, ne_eq]
    exact fun e => hne e.symm
  · rw [if_neg ho]
    exact h q hq

theorem lookup_append_none (ps qs : List (String × ℚ)) (nm : String)
    (h : ps.lookup nm = none) :
    (ps ++ qs).lookup nm = qs.lookup nm := by
  rw [List.lookup_append, h, Option.none_or]

/-- C10: `Component::getParameter(name)` for a name never set returns `0.0`
and leaves the parameter map untouched (the `const` lookup cannot insert).
"Never set" is the state-level fact that the map holds no entry for the name:
the map starts empty and, as the second conjunct shows, `setParameter` on any
other name never creates an entry for this one. -/
theorem C10_getParameter_unset (ps : List (String × ℚ)) (nm other : String)
    (v : ℚ) (h : ps.lookup nm = none) :
    getParamCall ps nm = (0, ps) ∧
    (other ≠ nm → (setParam ps other v).lookup nm = none) := by
  constructor
  · unfold getParamCall getParam
    rw [h]
  · intro hne
    unfold setParam
    split
    · exact lookup_map_replace_none ps other nm v hne h
    · rw [lookup_append_none ps _ nm h]
      have hb : (nm == other) = false := by
        simp only [beq_eq_false_iff_ne, ne_eq]
        exact fun e => hne e.symm
      simp [List.lookup, hb]

theorem C10_witness :
    getParamCall [(kResistance, 1000)] kVoltage = (0, [(kResistance, 1000)]) ∧
    (kFrequency ≠ kVoltage →
      (setParam [(kResistance, 1000)] kFrequency 50).lookup kVoltage = none) :=
  C10_getParameter_unset [(kResistance, 1000)] kVoltage kFrequency 50 (by decide)

/-!  ### Bounds-invariant machinery for the optimizer family (claim C9) -/

theorem foldl_inv {α β : Type} (P : α → Prop) (f : α → β → α) (l : List β)
    (init : α) (h0 : P init) (hstep : ∀ a b, b ∈ l → P a → P (f a b)) :
    P (l.foldl f init) := by
  induction l generalizing init with
  | nil => exact h0
  | cons x xs ih =>
    exact ih (f init x) (hstep init x (List.mem_cons_self _ _) h0)
      (fun a b hb ha => hstep a b (List.mem_cons_of_mem _ hb) ha)

theorem getD_set_self {α : Type} (l : List α) (i : ℕ) (a d : α)
    (h : i < l.length) : (l.set i a).getD i d = a := by
  induction l generalizing i with
  | nil => simp at h
  | cons x xs ih =>
    cases i with
    | zero => rfl
    | succ j => exact ih j (by simpa using h)

theorem getD_set_ne {α : Type} (l : List α) (i j : ℕ) (a d : α)
    (h : j ≠ i) : (l.set i a).getD j d = l.getD j d := by
  induction l generalizing i j with
  | nil => simp
  | cons x xs ih =>
    cases i with
    | zero =>
      cases j with
      | zero => exact absurd rfl h
      | succ j2 => rfl
    | succ i2 =>
      cases j with
      | zero => rfl
      | succ j2 => exact ih i2 j2 (fun e => h (by rw [e]))

theorem getD_map_lt {α β : Type} (f : α → β) (l : List α) (i : ℕ) (d : β)
    (d2 : α) (h : i < l.length) : (l.map f).getD i d = f (l.getD i d2) := by
  rw [List.getD_eq_getElem _ _ (by simpa using h), List.getD_eq_getElem _ _ h,
    List.getElem_map]

theorem rngOK_tail {g : Rng} (h : rngOK g) : rngOK (rngTail g) :=
  fun n => h (n + 1)

theorem uniformDist_ok {g : Rng} (h : rngOK g) (a b : ℚ) :
    rngOK (uniformDist g a b).2 :=
  rngOK_tail h

theorem uniformDist_mem {g : Rng} (h : rngOK g) {a b : ℚ} (hab : a ≤ b) :
    a ≤ (uniformDist g a b).1 ∧ (uniformDist g a b).1 ≤ b := by
  obtain ⟨h0, h1⟩ := h 0
  unfold uniformDist
  constructor
  · simp only []
    nlinarith
  · simp only []
    nlinarith

theorem clampQ_mem (v lo hi : ℚ) (hab : lo ≤ hi) :
    lo ≤ clampQ v lo hi ∧ clampQ v lo hi ≤ hi := by
  unfold clampQ
  split
  · exact ⟨le_refl _, hab⟩
  · split
    · exact ⟨hab, le_refl _⟩
    · constructor <;> linarith [le_of_not_lt (by assumption : ¬v < lo),
        le_of_not_lt (by assumption : ¬hi < v)]

theorem paramsOK_head {p : Param} {ps : List Param} (h : paramsOK (p :: ps)) :
    p.minValue ≤ p.maxValue :=
  h p (List.mem_cons_self _ _)

theorem paramsOK_tail {p : Param} {ps : List Param} (h : paramsOK (p :: ps)) :
    paramsOK ps :=
  fun q hq => h q (List.mem_cons_of_mem _ hq)

/-- How a conforming vector decomposes over cons cells. -/
theorem conformsTo_cons {p : Param} {ps : List Param} {q : Param}
    {vs : List Param} :
    conformsTo (p :: ps) (q :: vs) ↔
      (q.minValue = p.minValue ∧ q.maxValue = p.maxValue ∧ paramInBounds q) ∧
        conformsTo ps vs := by
  unfold conformsTo boundsMatch
  constructor
  · rintro ⟨⟨hlen, hbm⟩, hib⟩
    refine ⟨⟨?_, ?_, hib 0 (by simp)⟩, ⟨by simpa using hlen, ?_⟩, ?_⟩
    · exact (hbm 0 (by simp)).1
    · exact (hbm 0 (by simp)).2
    · intro i hi
      exact hbm (i + 1) (by simpa using hi)
    · intro i hi
      exact hib (i + 1) (by simpa using hi)
  · rintro ⟨⟨h1, h2, h3⟩, ⟨hlen, hbm⟩, hib⟩
    refine ⟨⟨by simpa using hlen, ?_⟩, ?_⟩
    · intro i hi
      cases i with
      | zero => exact ⟨h1, h2⟩
      | succ j => exact hbm j (by simpa using hi)
    · intro i hi
      cases i with
      | zero => exact h3
      | succ j => exact hib j (by simpa using hi)

theorem conformsTo_nil : conformsTo [] [] := by
  refine ⟨⟨rfl, ?_⟩, ?_⟩ <;> intro i hi <;> simp at hi

theorem conformsTo_length {params v : List Param} (h : conformsTo params v) :
    v.length = params.length :=
  h.1.1

theorem conformsTo_getD {params v : List Param} (h : conformsTo params v)
    {i : ℕ} (hi : i < v.length) :
    (v.getD i defaultParam).minValue = (params.getD i defaultParam).minValue ∧
    (v.getD i defaultParam).maxValue = (params.getD i defaultParam).maxValue ∧
    paramInBounds (v.getD i defaultParam) :=
  ⟨(h.1.2 i hi).1, (h.1.2 i hi).2, h.2 i hi⟩

/-- Updating one position with a parameter that matches the bounds there and
is in bounds preserves conformity. -/
theorem conformsTo_set {params v : List Param} (h : conformsTo params v)
    {i : ℕ} {q : Param}
    (hq : q.minValue = (params.getD i defaultParam).minValue ∧
      q.maxValue = (params.getD i defaultParam).maxValue ∧ paramInBounds q) :
    conformsTo params (v.set i q) := by
  refine ⟨⟨by rw [List.length_set]; exact h.1.1, ?_⟩, ?_⟩
  · intro j hj
    rw [List.length_set] at hj
    by_cases hji : j = i
    · subst hji
      rw [getD_set_self _ _ _ _ hj]
      exact ⟨hq.1, hq.2.1⟩
    · rw [getD_set_ne _ _ _ _ _ hji]
      exact h.1.2 j hj
  · intro j hj
    rw [List.length_set] at hj
    by_cases hji : j = i
    · subst hji
      rw [getD_set_self _ _ _ _ hj]
      exact hq.2.2
    · rw [getD_set_ne _ _ _ _ _ hji]
      exact h.2 j hj

theorem boundsMatch_of_conformsTo {params v : List Param}
    (h : conformsTo params v) : boundsMatch params v :=
  h.1

theorem boundsMatch_set {params v : List Param} (h : boundsMatch params v)
    {i : ℕ} {q : Param}
    (hq : q.minValue = (params.getD i defaultParam).minValue ∧
      q.maxValue = (params.getD i defaultParam).maxValue) :
    boundsMatch params (v.set i q) := by
  refine ⟨by rw [List.length_set]; exact h.1, ?_⟩
  intro j hj
  rw [List.length_set] at hj
  by_cases hji : j = i
  · subst hji
    rw [getD_set_self _ _ _ _ hj]
    exact hq
  · rw [getD_set_ne _ _ _ _ _ hji]
    exact h.2 j hj

theorem boundsMatch_map_cur {params v : List Param} (h : boundsMatch params v)
    (f : Param → ℚ) :
    boundsMatch params (v.map fun p => { p with currentValue := f p }) := by
  refine ⟨by rw [List.length_map]; exact h.1, ?_⟩
  intro j hj
  rw [List.length_map] at hj
  rw [getD_map_lt _ _ _ _ defaultParam hj]
  exact h.2 j hj

theorem genRandomIndividual_spec (params : List Param) (g : Rng)
    (hOK : paramsOK params) (hg : rngOK g) :
    conformsTo params (genRandomIndividual params g).1 ∧
      rngOK (genRandomIndividual params g).2 := by
  induction params generalizing g with
  | nil => exact ⟨conformsTo_nil, hg⟩
  | cons p ps ih =>
    have hu := uniformDist_mem hg (paramsOK_head hOK)
    have ih2 := ih (uniformDist g p.minValue p.maxValue).2 (paramsOK_tail hOK)
      (uniformDist_ok hg _ _)
    rw [genRandomIndividual]
    refine ⟨conformsTo_cons.mpr ⟨⟨rfl, rfl, hu.1, hu.2⟩, ih2.1⟩, ih2.2⟩

theorem genRandomVelocity_ok (params : List Param) (g : Rng) (hg : rngOK g) :
    rngOK (genRandomVelocity params g).2 := by
  induction params generalizing g with
  | nil => exact hg
  | cons p ps ih =>
    rw [genRandomVelocity]
    exact ih _ (uniformDist_ok hg _ _)

theorem mutateGenes_spec (rate : ℚ) (params v : List Param) (g : Rng)
    (hv : conformsTo params v) (hg : rngOK g) :
    conformsTo params (mutateGenes rate v g).1 ∧
      rngOK (mutateGenes rate v g).2 := by
  induction v generalizing params g with
  | nil =>
    cases params with
    | nil => exact ⟨conformsTo_nil, hg⟩
    | cons p ps => exact absurd (conformsTo_length hv) (by simp)
  | cons q vs ih =>
    cases params with
    | nil => exact absurd (conformsTo_length hv) (by simp)
    | cons p ps =>
      obtain ⟨⟨e1, e2, hib⟩, htail⟩ := conformsTo_cons.mp hv
      have hqq : q.minValue ≤ q.maxValue := le_trans hib.1 hib.2
      rw [mutateGenes]
      split
      · have hu2 := uniformDist_mem (uniformDist_ok hg 0 1) hqq
        have ih2 := ih ps
          (uniformDist (uniformDist g 0 1).2 q.minValue q.maxValue).2 htail
          (uniformDist_ok (uniformDist_ok hg 0 1) q.minValue q.maxValue)
        exact ⟨conformsTo_cons.mpr ⟨⟨e1, e2, hu2.1, hu2.2⟩, ih2.1⟩, ih2.2⟩
      · have ih2 := ih ps _ htail (uniformDist_ok hg 0 1)
        exact ⟨conformsTo_cons.mpr ⟨⟨e1, e2, hib⟩, ih2.1⟩, ih2.2⟩

theorem genNeighbor_spec (temp : ℚ) (params v : List Param) (g : Rng)
    (hv : conformsTo params v) (hg : rngOK g) :
    conformsTo params (genNeighbor temp v g).1 ∧
      rngOK (genNeighbor temp v g).2 := by
  induction v generalizing params g with
  | nil =>
    cases params with
    | nil => exact ⟨conformsTo_nil, hg⟩
    | cons p ps => exact absurd (conformsTo_length hv) (by simp)
  | cons q vs ih =>
    cases params with
    | nil => exact absurd (conformsTo_length hv) (by simp)
    | cons p ps =>
      obtain ⟨⟨e1, e2, hib⟩, htail⟩ := conformsTo_cons.mp hv
      have hqq : q.minValue ≤ q.maxValue := le_trans hib.1 hib.2
      have hc := clampQ_mem (q.currentValue +
        (uniformDist g (-((q.maxValue - q.minValue) * temp / 100))
          ((q.maxValue - q.minValue) * temp / 100)).1) q.minValue q.maxValue hqq
      have ih2 := ih ps
        (uniformDist g (-((q.maxValue - q.minValue) * temp / 100))
          ((q.maxValue - q.minValue) * temp / 100)).2 htail
        (uniformDist_ok hg (-((q.maxValue - q.minValue) * temp / 100))
          ((q.maxValue - q.minValue) * temp / 100))
      rw [genNeighbor]
      exact ⟨conformsTo_cons.mpr ⟨⟨e1, e2, hc.1, hc.2⟩, ih2.1⟩, ih2.2⟩

theorem ratFloor_lt_iff {r : ℚ} {z : ℤ} : r.floor < z ↔ r < (z : ℚ) := by
  rw [← not_le, ← not_le, Rat.le_floor]

theorem ratFloor_nonneg {r : ℚ} (h : 0 ≤ r) : 0 ≤ r.floor :=
  Rat.le_floor.mpr (by exact_mod_cast h)

theorem tournamentSelect_spec (params : List Param) (pop : List (List Param))
    (fitness : List ℚ) (g : Rng) (hpop : ∀ x, x ∈ pop → conformsTo params x)
    (hne : pop ≠ []) (hg : rngOK g) :
    conformsTo params (tournamentSelect pop fitness g).1 ∧
      rngOK (tournamentSelect pop fitness g).2 := by
  have hlen : 0 < pop.length := List.length_pos.mpr hne
  have hlePop : (0 : ℚ) ≤ (pop.length : ℚ) - 1 := by
    have : (1 : ℚ) ≤ (pop.length : ℚ) := by exact_mod_cast hlen
    linarith
  have hidx : ∀ g2 : Rng, rngOK g2 →
      (uniformDist g2 0 ((pop.length : ℚ) - 1)).1.floor.toNat < pop.length := by
    intro g2 hg2
    have hu := uniformDist_mem hg2 hlePop
    have hfl : (uniformDist g2 0 ((pop.length : ℚ) - 1)).1.floor < (pop.length : ℤ) := by
      rw [ratFloor_lt_iff]
      push_cast
      linarith [hu.2]
    omega
  have h1 := hidx g hg
  have h2 := hidx (uniformDist g 0 ((pop.length : ℚ) - 1)).2
    (uniformDist_ok hg 0 ((pop.length : ℚ) - 1))
  have h3 := hidx (uniformDist (uniformDist g 0 ((pop.length : ℚ) - 1)).2 0
      ((pop.length : ℚ) - 1)).2
    (uniformDist_ok (uniformDist_ok hg 0 ((pop.length : ℚ) - 1)) 0
      ((pop.length : ℚ) - 1))
  have hstep : ∀ x y : ℕ, x < pop.length → y < pop.length →
      (if fitness.getD y 0 > fitness.getD x 0 then y else x) < pop.length := by
    intro x y hx hy
    split <;> assumption
  have hwin : (tournamentSelect pop fitness g).1 ∈ pop := by
    unfold tournamentSelect
    simp only [List.foldl, List.headD]
    rw [List.getD_eq_getElem _ _ (hstep _ _ (hstep _ _ (hstep _ _ h1 h1) h2) h3)]
    exact List.getElem_mem _
  exact ⟨hpop _ hwin, rngOK_tail (rngOK_tail (rngOK_tail hg))⟩

theorem crossoverGenes_spec (params c1 c2 : List Param) (g : Rng)
    (h1 : conformsTo params c1) (h2 : conformsTo params c2) (hg : rngOK g) :
    conformsTo params (crossoverGenes params.length c1 c2 g).1 ∧
    conformsTo params (crossoverGenes params.length c1 c2 g).2.1 ∧
    rngOK (crossoverGenes params.length c1 c2 g).2.2 := by
  unfold crossoverGenes
  refine foldl_inv (fun acc : List Param × List Param × Rng =>
      conformsTo params acc.1 ∧ conformsTo params acc.2.1 ∧ rngOK acc.2.2)
    _ (List.range params.length) (c1, c2, g) ⟨h1, h2, hg⟩ ?_
  rintro ⟨a1, a2, ag⟩ i hi ⟨ha1, ha2, hag⟩
  simp only [List.mem_range] at hi
  dsimp only
  split
  · have hl1 : i < a1.length := by rw [conformsTo_length ha1]; exact hi
    have hl2 : i < a2.length := by rw [conformsTo_length ha2]; exact hi
    have ga1 := conformsTo_getD ha1 hl1
    have ga2 := conformsTo_getD ha2 hl2
    refine ⟨conformsTo_set ha1 ⟨ga1.1, ga1.2.1, ?_, ?_⟩,
      conformsTo_set ha2 ⟨ga2.1, ga2.2.1, ?_, ?_⟩, rngOK_tail hag⟩
    · show (a1.getD i defaultParam).minValue ≤ (a2.getD i defaultParam).currentValue
      rw [ga1.1, ← ga2.1]
      exact ga2.2.2.1
    · show (a2.getD i defaultParam).currentValue ≤ (a1.getD i defaultParam).maxValue
      rw [ga1.2.1, ← ga2.2.1]
      exact ga2.2.2.2
    · show (a2.getD i defaultParam).minValue ≤ (a1.getD i defaultParam).currentValue
      rw [ga2.1, ← ga1.1]
      exact ga1.2.2.1
    · show (a1.getD i defaultParam).currentValue ≤ (a2.getD i defaultParam).maxValue
      rw [ga2.2.1, ← ga1.2.1]
      exact ga1.2.2.2
  · exact ⟨ha1, ha2, rngOK_tail hag⟩

theorem gaBuildNewPop_spec (params : List Param) (cr mr : ℚ)
    (pop : List (List Param)) (fitness : List ℚ) (popSize : ℤ)
    (hpop : ∀ x, x ∈ pop → conformsTo params x)
    (hplen : pop.length = popSize.toNat) :
    ∀ (fuel : ℕ) (acc : List (List Param)) (g : Rng),
      (∀ x, x ∈ acc → conformsTo params x) → rngOK g →
      acc.length ≤ popSize.toNat → popSize.toNat ≤ acc.length + fuel →
      (∀ x, x ∈ (gaBuildNewPop params.length cr mr pop fitness popSize fuel acc g).1 →
        conformsTo params x) ∧
      rngOK (gaBuildNewPop params.length cr mr pop fitness popSize fuel acc g).2 ∧
      (gaBuildNewPop params.length cr mr pop fitness popSize fuel acc g).1.length =
        popSize.toNat := by
  intro fuel
  induction fuel with
  | zero =>
    intro acc g hacc hg hle hge
    rw [gaBuildNewPop]
    refine ⟨hacc, hg, ?_⟩
    show acc.length = popSize.toNat
    omega
  | succ n ih =>
    intro acc g hacc hg hle hge
    rw [gaBuildNewPop]
    by_cases hguard : (acc.length : ℤ) < popSize
    · rw [if_pos hguard]
      have hne : pop ≠ [] := by
        intro he
        rw [he] at hplen
        simp only [List.length_nil] at hplen
        omega
      have t1 := tournamentSelect_spec params pop fitness g hpop hne hg
      have t2 := tournamentSelect_spec params pop fitness
        (tournamentSelect pop fitness g).2 hpop hne t1.2
      have hu : rngOK (uniformDist (tournamentSelect pop fitness
          (tournamentSelect pop fitness g).2).2 0 1).2 :=
        rngOK_tail t2.2
      have hcc : ∀ cc : List Param × List Param × Rng,
          conformsTo params cc.1 → conformsTo params cc.2.1 → rngOK cc.2.2 →
          (∀ x, x ∈ (gaBuildNewPop params.length cr mr pop fitness popSize n
              (if ((acc ++ [(mutateGenes mr cc.1 cc.2.2).1]).length : ℤ) < popSize
                then (acc ++ [(mutateGenes mr cc.1 cc.2.2).1]) ++
                  [(mutateGenes mr cc.2.1 (mutateGenes mr cc.1 cc.2.2).2).1]
                else acc ++ [(mutateGenes mr cc.1 cc.2.2).1])
              (mutateGenes mr cc.2.1 (mutateGenes mr cc.1 cc.2.2).2).2).1 →
            conformsTo params x) ∧
          rngOK (gaBuildNewPop params.length cr mr pop fitness popSize n
              (if ((acc ++ [(mutateGenes mr cc.1 cc.2.2).1]).length : ℤ) < popSize
                then (acc ++ [(mutateGenes mr cc.1 cc.2.2).1]) ++
                  [(mutateGenes mr cc.2.1 (mutateGenes mr cc.1 cc.2.2).2).1]
                else acc ++ [(mutateGenes mr cc.1 cc.2.2).1])
              (mutateGenes mr cc.2.1 (mutateGenes mr cc.1 cc.2.2).2).2).2 ∧
          (gaBuildNewPop params.length cr mr pop fitness popSize n
              (if ((acc ++ [(mutateGenes mr cc.1 cc.2.2).1]).length : ℤ) < popSize
                then (acc ++ [(mutateGenes mr cc.1 cc.2.2).1]) ++
                  [(mutateGenes mr cc.2.1 (mutateGenes mr cc.1 cc.2.2).2).1]
                else acc ++ [(mutateGenes mr cc.1 cc.2.2).1])
              (mutateGenes mr cc.2.1 (mutateGenes mr cc.1 cc.2.2).2).2).1.length =
            popSize.toNat := by
        intro cc hc1 hc2 hcg
        have m1 := mutateGenes_spec mr params cc.1 cc.2.2 hc1 hcg
        have m2 := mutateGenes_spec mr params cc.2.1
          (mutateGenes mr cc.1 cc.2.2).2 hc2 m1.2
        have hacc1 : ∀ x, x ∈ acc ++ [(mutateGenes mr cc.1 cc.2.2).1] →
            conformsTo params x := by
          intro x hx
          rcases List.mem_append.mp hx with hx | hx
          · exact hacc x hx
          · rw [List.mem_singleton.mp hx]
            exact m1.1
        by_cases hg2 : ((acc ++ [(mutateGenes mr cc.1 cc.2.2).1]).length : ℤ) < popSize
        · rw [if_pos hg2]
          apply ih
          · intro x hx
            rcases List.mem_append.mp hx with hx | hx
            · exact hacc1 x hx
            · rw [List.mem_singleton.mp hx]
              exact m2.1
          · exact m2.2
          · simp only [List.length_append, List.length_singleton] at hg2 ⊢
            omega
          · simp only [List.length_append, List.length_singleton] at hg2 hguard ⊢
            omega
        · rw [if_neg hg2]
          apply ih
          · exact hacc1
          · exact m2.2
          · simp only [List.length_append, List.length_singleton] at hg2 ⊢
            omega
          · simp only [List.length_append, List.length_singleton] at hg2 ⊢
            omega
      dsimp only
      by_cases hcr : (uniformDist (tournamentSelect pop fitness
          (tournamentSelect pop fitness g).2).2 0 1).1 < cr
      · rw [if_pos hcr]
        have cspec := crossoverGenes_spec params _ _ _ t1.1 t2.1 hu
        exact hcc _ cspec.1 cspec.2.1 cspec.2.2
      · rw [if_neg hcr]
        exact hcc _ t1.1 t2.1 hu
    · rw [if_neg hguard]
      refine ⟨hacc, hg, ?_⟩
      show acc.length = popSize.toNat
      omega

/-- Fold invariant that additionally tracks a length-like measure growing by
one per step (the population/swarm initialization folds). -/
theorem foldl_append_inv {α β : Type} (P : α → Prop) (len : α → ℕ)
    (f : α → β → α) (l : List β) (init : α) (h0 : P init)
    (hstep : ∀ a b, b ∈ l → P a → P (f a b) ∧ len (f a b) = len a + 1) :
    P (l.foldl f init) ∧ len (l.foldl f init) = len init + l.length := by
  induction l generalizing init with
  | nil => exact ⟨h0, by simp⟩
  | cons x xs ih =>
    have hx := hstep init x (List.mem_cons_self _ _) h0
    have step := ih (f init x) hx.1
      (fun a b hb ha => hstep a b (List.mem_cons_of_mem _ hb) ha)
    rw [List.foldl_cons]
    refine ⟨step.1, ?_⟩
    rw [step.2, hx.2]
    simp only [List.length_cons]
    omega

/-- One GA generation preserves conformity of the population and the trace,
the population size, and the RNG range. -/
theorem gaGeneration_spec (measure : List Param → List ℚ)
    (objectives : List Objective) (params : List Param) (cr mr : ℚ)
    (popSize : ℤ) (st : List (List Param) × Rng × List (List Param))
    (hpop : ∀ x, x ∈ st.1 → conformsTo params x) (hg : rngOK st.2.1)
    (hlen : st.1.length = popSize.toNat)
    (htr : ∀ x, x ∈ st.2.2 → conformsTo params x) :
    (∀ x, x ∈ (gaGeneration measure objectives params.length cr mr popSize st).1 →
      conformsTo params x) ∧
    rngOK (gaGeneration measure objectives params.length cr mr popSize st).2.1 ∧
    (gaGeneration measure objectives params.length cr mr popSize st).1.length =
      popSize.toNat ∧
    (∀ x, x ∈ (gaGeneration measure objectives params.length cr mr popSize st).2.2 →
      conformsTo params x) := by
  have hb := gaBuildNewPop_spec params cr mr st.1
    (st.1.map (evaluateFitness measure objectives)) popSize hpop hlen
    popSize.toNat [] st.2.1 (fun x hx => absurd hx (List.not_mem_nil x)) hg
    (by simp) (by simp)
  refine ⟨hb.1, hb.2.1, hb.2.2, ?_⟩
  intro x hx
  rcases List.mem_append.mp hx with hx | hx
  · exact htr x hx
  · exact hpop x hx

/-- Every vector `optimizeGeneticAlgorithm` hands to the fitness function
conforms to the parameter bounds. -/
theorem optimizeGeneticAlgorithm_trace (measure : List Param → List ℚ)
    (objectives : List Objective) (params : List Param)
    (popSize generations : ℤ) (mr cr : ℚ) (g : Rng)
    (hOK : paramsOK params) (hg : rngOK g) :
    ∀ x, x ∈ (optimizeGeneticAlgorithm measure objectives params popSize
      generations mr cr g).2 → conformsTo params x := by
  intro x hx
  have hinit := foldl_append_inv
    (fun acc : List (List Param) × Rng =>
      (∀ y, y ∈ acc.1 → conformsTo params y) ∧ rngOK acc.2)
    (fun acc => acc.1.length)
    (fun acc _ =>
      let rI := genRandomIndividual params acc.2
      (acc.1 ++ [rI.1], rI.2))
    (List.range popSize.toNat) ([], g)
    ⟨fun y hy => absurd hy (List.not_mem_nil y), hg⟩
    (by
      intro a b _hb ha
      have hr := genRandomIndividual_spec params a.2 hOK ha.2
      refine ⟨⟨?_, hr.2⟩, by simp⟩
      intro y hy
      rcases List.mem_append.mp hy with hy | hy
      · exact ha.1 y hy
      · rw [List.mem_singleton.mp hy]
        exact hr.1)
  have hgens := foldl_inv
    (fun st : List (List Param) × Rng × List (List Param) =>
      (∀ y, y ∈ st.1 → conformsTo params y) ∧ rngOK st.2.1 ∧
        st.1.length = popSize.toNat ∧
        (∀ y, y ∈ st.2.2 → conformsTo params y))
    (fun st _ => gaGeneration measure objectives params.length cr mr popSize st)
    (List.range generations.toNat)
    (((List.range popSize.toNat).foldl
        (fun (acc : List (List Param) × Rng) _ =>
          let rI := genRandomIndividual params acc.2
          (acc.1 ++ [rI.1], rI.2)) ([], g)).1,
     ((List.range popSize.toNat).foldl
        (fun (acc : List (List Param) × Rng) _ =>
          let rI := genRandomIndividual params acc.2
          (acc.1 ++ [rI.1], rI.2)) ([], g)).2, [])
    ⟨hinit.1.1, hinit.1.2, by simpa using hinit.2,
      fun y hy => absurd hy (List.not_mem_nil y)⟩
    (by
      intro a b _hb ha
      exact gaGeneration_spec measure objectives params cr mr popSize a
        ha.1 ha.2.1 ha.2.2.1 ha.2.2.2)
  rcases List.mem_append.mp hx with hy | hy
  · exact hgens.2.2.2 x hy
  · exact hgens.1 x hy

/-- The per-gene PSO velocity/position update keeps the particle inside its
bounds (every new position component is clamped). -/
theorem psoGeneLoop_spec (w c1 c2 : ℚ) (params pb gb pos vel : List Param)
    (g : Rng) (hpos : conformsTo params pos) (hg : rngOK g) :
    conformsTo params (psoGeneLoop w c1 c2 params.length pb gb pos vel g).1 ∧
    rngOK (psoGeneLoop w c1 c2 params.length pb gb pos vel g).2.2 := by
  unfold psoGeneLoop
  refine foldl_inv (fun acc : List Param × List Param × Rng =>
      conformsTo params acc.1 ∧ rngOK acc.2.2) _ (List.range params.length)
    (pos, vel, g) ⟨hpos, hg⟩ ?_
  rintro ⟨a1, a2, ag⟩ j hj ⟨ha1, hag⟩
  simp only [List.mem_range] at hj
  dsimp only
  have hl1 : j < a1.length := by rw [conformsTo_length ha1]; exact hj
  have gj := conformsTo_getD ha1 hl1
  have hmm : (a1.getD j defaultParam).minValue ≤ (a1.getD j defaultParam).maxValue :=
    le_trans gj.2.2.1 gj.2.2.2
  exact ⟨conformsTo_set ha1 ⟨gj.1, gj.2.1, (clampQ_mem _ _ _ hmm).1,
    (clampQ_mem _ _ _ hmm).2⟩, rngOK_tail (rngOK_tail hag)⟩

/-- The fields of one PSO particle update that the bounds invariant watches:
positions, RNG and trace are the same in every best-update branch. -/
theorem psoParticleStep_fields (measure : List Param → List ℚ)
    (objectives : List Objective) (w c1 c2 : ℚ) (paramCount : ℕ)
    (st : PsoSt) (i : ℕ) :
    (psoParticleStep measure objectives w c1 c2 paramCount st i).positions =
      st.positions.set i (psoGeneLoop w c1 c2 paramCount
        (st.bestPositions.getD i []) st.globalBest (st.positions.getD i [])
        (st.velocities.getD i []) st.rng).1 ∧
    (psoParticleStep measure objectives w c1 c2 paramCount st i).rng =
      (psoGeneLoop w c1 c2 paramCount (st.bestPositions.getD i [])
        st.globalBest (st.positions.getD i []) (st.velocities.getD i [])
        st.rng).2.2 ∧
    (psoParticleStep measure objectives w c1 c2 paramCount st i).trace =
      st.trace ++ [(psoGeneLoop w c1 c2 paramCount
        (st.bestPositions.getD i []) st.globalBest (st.positions.getD i [])
        (st.velocities.getD i []) st.rng).1] := by
  unfold psoParticleStep
  dsimp only
  split
  · split
    · exact ⟨rfl, rfl, rfl⟩
    · exact ⟨rfl, rfl, rfl⟩
  · exact ⟨rfl, rfl, rfl⟩

/-- One PSO particle update preserves the bounds invariant. -/
theorem psoParticleStep_spec (measure : List Param → List ℚ)
    (objectives : List Objective) (w c1 c2 : ℚ) (params : List Param)
    (swarmSize : ℕ) (st : PsoSt) (i : ℕ)
    (hpos : ∀ x, x ∈ st.positions → conformsTo params x)
    (hlen : st.positions.length = swarmSize) (hg : rngOK st.rng)
    (htr : ∀ x, x ∈ st.trace → conformsTo params x) (hi : i < swarmSize) :
    (∀ x, x ∈ (psoParticleStep measure objectives w c1 c2 params.length st i).positions →
      conformsTo params x) ∧
    (psoParticleStep measure objectives w c1 c2 params.length st i).positions.length =
      swarmSize ∧
    rngOK (psoParticleStep measure objectives w c1 c2 params.length st i).rng ∧
    (∀ x, x ∈ (psoParticleStep measure objectives w c1 c2 params.length st i).trace →
      conformsTo params x) := by
  have hil : i < st.positions.length := by omega
  have hmem : st.positions.getD i [] ∈ st.positions := by
    rw [List.getD_eq_getElem _ _ hil]
    exact List.getElem_mem _
  have hupd := psoGeneLoop_spec w c1 c2 params (st.bestPositions.getD i [])
    st.globalBest (st.positions.getD i []) (st.velocities.getD i []) st.rng
    (hpos _ hmem) hg
  obtain ⟨hp, hr, ht⟩ := psoParticleStep_fields measure objectives w c1 c2
    params.length st i
  rw [hp, hr, ht]
  refine ⟨?_, by rw [List.length_set]; exact hlen, hupd.2, ?_⟩
  · intro x hx
    rcases List.mem_or_eq_of_mem_set hx with hx | hx
    · exact hpos x hx
    · rw [hx]
      exact hupd.1
  · intro x hx
    rcases List.mem_append.mp hx with hx | hx
    · exact htr x hx
    · rw [List.mem_singleton.mp hx]
      exact hupd.1

/-- The swarm initialization establishes the bounds invariant. -/
theorem psoInit_spec (measure : List Param → List ℚ)
    (objectives : List Objective) (params : List Param) (swarmSize : ℤ)
    (g : Rng) (hOK : paramsOK params) (hg : rngOK g) :
    (∀ x, x ∈ (psoInit measure objectives params swarmSize g).positions →
      conformsTo params x) ∧
    (psoInit measure objectives params swarmSize g).positions.length =
      swarmSize.toNat ∧
    rngOK (psoInit measure objectives params swarmSize g).rng ∧
    (∀ x, x ∈ (psoInit measure objectives params swarmSize g).trace →
      conformsTo params x) := by
  unfold psoInit
  have h := foldl_append_inv
    (fun st : PsoSt =>
      (∀ x, x ∈ st.positions → conformsTo params x) ∧ rngOK st.rng ∧
        (∀ x, x ∈ st.trace → conformsTo params x))
    (fun st => st.positions.length)
    (fun st _ =>
      let p := genRandomIndividual params st.rng
      let v := genRandomVelocity params p.2
      let f := evaluateFitness measure objectives p.1
      let st1 := { st with positions := st.positions ++ [p.1],
                           velocities := st.velocities ++ [v.1],
                           bestPositions := st.bestPositions ++ [p.1],
                           bestFitnesses := st.bestFitnesses ++ [f],
                           rng := v.2, trace := st.trace ++ [p.1] }
      if (match st1.globalBestFitness with | none => true | some b => f > b) then
        { st1 with globalBest := p.1, globalBestFitness := some f }
      else st1)
    (List.range swarmSize.toNat)
    { positions := [], velocities := [], bestPositions := [], bestFitnesses := [],
      globalBest := [], globalBestFitness := none, rng := g, trace := [] }
    ⟨fun y hy => absurd hy (List.not_mem_nil y), hg,
      fun y hy => absurd hy (List.not_mem_nil y)⟩
    (by
      intro a b _hb ha
      have hp := genRandomIndividual_spec params a.rng hOK ha.2.1
      have hv := genRandomVelocity_ok params (genRandomIndividual params a.rng).2 hp.2
      have hmemb : ∀ y, y ∈ a.positions ++ [(genRandomIndividual params a.rng).1] →
          conformsTo params y := by
        intro y hy
        rcases List.mem_append.mp hy with hy | hy
        · exact ha.1 y hy
        · rw [List.mem_singleton.mp hy]
          exact hp.1
      have hmemt : ∀ y, y ∈ a.trace ++ [(genRandomIndividual params a.rng).1] →
          conformsTo params y := by
        intro y hy
        rcases List.mem_append.mp hy with hy | hy
        · exact ha.2.2 y hy
        · rw [List.mem_singleton.mp hy]
          exact hp.1
      dsimp only
      split
      · exact ⟨⟨hmemb, hv, hmemt⟩, by simp⟩
      · exact ⟨⟨hmemb, hv, hmemt⟩, by simp⟩)
  exact ⟨h.1.1, by simpa using h.2, h.1.2.1, h.1.2.2⟩

/-- Every vector `optimizeParticleSwarm` hands to the fitness function
conforms to the parameter bounds. -/
theorem optimizeParticleSwarm_trace (measure : List Param → List ℚ)
    (objectives : List Objective) (params : List Param)
    (swarmSize iterations : ℤ) (w c1 c2 : ℚ) (g : Rng)
    (hOK : paramsOK params) (hg : rngOK g) :
    ∀ x, x ∈ (optimizeParticleSwarm measure objectives params swarmSize
      iterations w c1 c2 g).2 → conformsTo params x := by
  intro x hx
  have h0 := psoInit_spec measure objectives params swarmSize g hOK hg
  have hiter := foldl_inv
    (fun st : PsoSt =>
      (∀ y, y ∈ st.positions → conformsTo params y) ∧
        st.positions.length = swarmSize.toNat ∧ rngOK st.rng ∧
        (∀ y, y ∈ st.trace → conformsTo params y))
    (fun st _ =>
      (List.range swarmSize.toNat).foldl
        (psoParticleStep measure objectives w c1 c2 params.length) st)
    (List.range iterations.toNat)
    (psoInit measure objectives params swarmSize g)
    h0
    (by
      intro a b _hb ha
      refine foldl_inv
        (fun st : PsoSt =>
          (∀ y, y ∈ st.positions → conformsTo params y) ∧
            st.positions.length = swarmSize.toNat ∧ rngOK st.rng ∧
            (∀ y, y ∈ st.trace → conformsTo params y))
        (psoParticleStep measure objectives w c1 c2 params.length)
        (List.range swarmSize.toNat) a ha ?_
      intro s i hi hs
      simp only [List.mem_range] at hi
      exact psoParticleStep_spec measure objectives w c1 c2 params
        swarmSize.toNat s i hs.1 hs.2.1 hs.2.2.1 hs.2.2.2 hi)
  exact hiter.2.2.2 x hx

/-- The modelled `uniformInt` stays within `[a, b]` and leaves the RNG in
range. -/
theorem uniformInt_mem {g : Rng} (hg : rngOK g) {a b : ℤ} (hab : a ≤ b) :
    a ≤ (uniformInt g a b).1 ∧ (uniformInt g a b).1 ≤ b ∧
      rngOK (uniformInt g a b).2 := by
  have hu := uniformDist_mem hg (show (0 : ℚ) ≤ 1 by norm_num)
  unfold uniformInt
  dsimp only
  refine ⟨le_min ?_ hab, min_le_right _ _, rngOK_tail hg⟩
  have hfl : (0 : ℤ) ≤ ((uniformDist g 0 1).1 * ((b : ℚ) - (a : ℚ) + 1)).floor := by
    apply ratFloor_nonneg
    have hba : (0 : ℚ) ≤ (b : ℚ) - (a : ℚ) + 1 := by
      have : (a : ℚ) ≤ (b : ℚ) := by exact_mod_cast hab
      linarith
    exact mul_nonneg hu.1 hba
  omega

/-- Whenever the donor-picking loop returns, the three indices are in
`[0, popSize)` and the RNG is still in range. -/
theorem pickDistinct_spec (popSize i : ℤ) (hpos : 1 ≤ popSize) :
    ∀ (fuel : ℕ) (g : Rng), rngOK g →
      ∀ rs g2, pickDistinct popSize i fuel g = some (rs, g2) →
        rngOK g2 ∧ 0 ≤ rs.1 ∧ rs.1 < popSize ∧ 0 ≤ rs.2.1 ∧ rs.2.1 < popSize ∧
          0 ≤ rs.2.2 ∧ rs.2.2 < popSize := by
  intro fuel
  induction fuel with
  | zero =>
    intro g _hg rs g2 h
    exact absurd h (by rw [pickDistinct]; simp)
  | succ n ih =>
    intro g hg rs g2 h
    have hab : (0 : ℤ) ≤ popSize - 1 := by omega
    have h1 := uniformInt_mem hg hab
    have h2 := uniformInt_mem h1.2.2 hab
    have h3 := uniformInt_mem h2.2.2 hab
    rw [pickDistinct] at h
    split at h
    · exact ih _ h3.2.2 rs g2 h
    · simp only [Option.some.injEq, Prod.mk.injEq] at h
      obtain ⟨hrs, hg2⟩ := h
      subst hrs
      subst hg2
      have hb1 : (uniformInt g 0 (popSize - 1)).1 < popSize := by omega
      have hb2 : (uniformInt (uniformInt g 0 (popSize - 1)).2 0
          (popSize - 1)).1 < popSize := by omega
      have hb3 : (uniformInt (uniformInt (uniformInt g 0 (popSize - 1)).2 0
          (popSize - 1)).2 0 (popSize - 1)).1 < popSize := by omega
      exact ⟨h3.2.2, h1.1, hb1, h2.1, hb2, h3.1, hb3⟩

/-- The DE trial-vector construction conforms: each replaced gene is clamped
into the target's bounds, untouched genes stay as in the (conforming)
target. -/
theorem deTrialGenes_spec (Fdw CR : ℚ) (params xi x1 x2 x3 : List Param)
    (bigR : ℤ) (g : Rng) (hxi : conformsTo params xi) (hg : rngOK g) :
    conformsTo params (deTrialGenes params.length Fdw CR xi x1 x2 x3 bigR g).1 ∧
    rngOK (deTrialGenes params.length Fdw CR xi x1 x2 x3 bigR g).2 := by
  unfold deTrialGenes
  refine foldl_inv (fun acc : List Param × Rng =>
      conformsTo params acc.1 ∧ rngOK acc.2) _ (List.range params.length)
    (xi, g) ⟨hxi, hg⟩ ?_
  rintro ⟨a1, ag⟩ j hj ⟨ha1, hag⟩
  simp only [List.mem_range] at hj
  dsimp only
  split
  · have hl1 : j < a1.length := by rw [conformsTo_length ha1]; exact hj
    have gj := conformsTo_getD ha1 hl1
    have hmm : (a1.getD j defaultParam).minValue ≤ (a1.getD j defaultParam).maxValue :=
      le_trans gj.2.2.1 gj.2.2.2
    exact ⟨conformsTo_set ha1 ⟨gj.1, gj.2.1, (clampQ_mem _ _ _ hmm).1,
      (clampQ_mem _ _ _ hmm).2⟩, rngOK_tail hag⟩
  · exact ⟨ha1, rngOK_tail hag⟩

/-- One DE target-vector step preserves the bounds invariant. -/
theorem deIndividualStep_spec (measure : List Param → List ℚ)
    (objectives : List Objective) (params : List Param) (Fdw CR : ℚ)
    (popSize : ℤ) (pickFuel : ℕ) (st : DeSt) (i : ℕ)
    (hpop : ∀ x, x ∈ st.pop → conformsTo params x)
    (hlen : st.pop.length = popSize.toNat) (hg : rngOK st.rng)
    (htr : ∀ x, x ∈ st.trace → conformsTo params x)
    (hi : i < popSize.toNat) :
    (∀ x, x ∈ (deIndividualStep measure objectives params.length Fdw CR popSize
      pickFuel st i).pop → conformsTo params x) ∧
    (deIndividualStep measure objectives params.length Fdw CR popSize
      pickFuel st i).pop.length = popSize.toNat ∧
    rngOK (deIndividualStep measure objectives params.length Fdw CR popSize
      pickFuel st i).rng ∧
    (∀ x, x ∈ (deIndividualStep measure objectives params.length Fdw CR popSize
      pickFuel st i).trace → conformsTo params x) := by
  unfold deIndividualStep
  cases hpick : pickDistinct popSize (i : ℤ) pickFuel st.rng with
  | none =>
    exact ⟨hpop, hlen, hg, htr⟩
  | some val =>
    obtain ⟨rs, g1⟩ := val
    have hpos : (1 : ℤ) ≤ popSize := by omega
    have hps := pickDistinct_spec popSize (i : ℤ) hpos pickFuel st.rng hg rs g1 hpick
    have hil : i < st.pop.length := by omega
    have hxi : st.pop.getD i [] ∈ st.pop := by
      rw [List.getD_eq_getElem _ _ hil]
      exact List.getElem_mem _
    have hur : rngOK (uniformInt g1 0 ((params.length : ℤ) - 1)).2 :=
      rngOK_tail hps.1
    have htrial := deTrialGenes_spec Fdw CR params (st.pop.getD i [])
      (st.pop.getD rs.1.toNat []) (st.pop.getD rs.2.1.toNat [])
      (st.pop.getD rs.2.2.toNat [])
      (uniformInt g1 0 ((params.length : ℤ) - 1)).1
      (uniformInt g1 0 ((params.length : ℤ) - 1)).2
      (hpop _ hxi) hur
    have hmemt : ∀ y, y ∈ st.trace ++ [(deTrialGenes params.length Fdw CR
        (st.pop.getD i []) (st.pop.getD rs.1.toNat []) (st.pop.getD rs.2.1.toNat [])
        (st.pop.getD rs.2.2.toNat []) (uniformInt g1 0 ((params.length : ℤ) - 1)).1
        (uniformInt g1 0 ((params.length : ℤ) - 1)).2).1] →
        conformsTo params y := by
      intro y hy
      rcases List.mem_append.mp hy with hy | hy
      · exact htr y hy
      · rw [List.mem_singleton.mp hy]
        exact htrial.1
    dsimp only
    split
    · refine ⟨?_, by rw [List.length_set]; exact hlen, htrial.2, hmemt⟩
      intro y hy
      rcases List.mem_or_eq_of_mem_set hy with hy | hy
      · exact hpop y hy
      · rw [hy]
        exact htrial.1
    · exact ⟨hpop, hlen, htrial.2, hmemt⟩

/-- Every vector `DifferentialEvolution::optimize` hands to the fitness
function conforms to the parameter bounds. -/
theorem optimizeDifferentialEvolution_trace (measure : List Param → List ℚ)
    (objectives : List Objective) (params : List Param)
    (popSize generations : ℤ) (Fdw CR : ℚ) (pickFuel : ℕ) (g : Rng)
    (hOK : paramsOK params) (hg : rngOK g) :
    ∀ x, x ∈ (optimizeDifferentialEvolution measure objectives params popSize
      generations Fdw CR pickFuel g).2 → conformsTo params x := by
  intro x hx
  have hinit := foldl_append_inv
    (fun st : DeSt =>
      (∀ y, y ∈ st.pop → conformsTo params y) ∧ rngOK st.rng ∧
        (∀ y, y ∈ st.trace → conformsTo params y))
    (fun st => st.pop.length)
    (fun (acc : DeSt) _ =>
      let rI := genRandomIndividual params acc.rng
      let f := evaluateFitness measure objectives rI.1
      { acc with pop := acc.pop ++ [rI.1], fitness := acc.fitness ++ [f],
                 rng := rI.2, trace := acc.trace ++ [rI.1] })
    (List.range popSize.toNat)
    { pop := [], fitness := [], rng := g, trace := [] }
    ⟨fun y hy => absurd hy (List.not_mem_nil y), hg,
      fun y hy => absurd hy (List.not_mem_nil y)⟩
    (by
      intro a b _hb ha
      have hr := genRandomIndividual_spec params a.rng hOK ha.2.1
      have hmemb : ∀ y, y ∈ a.pop ++ [(genRandomIndividual params a.rng).1] →
          conformsTo params y := by
        intro y hy
        rcases List.mem_append.mp hy with hy | hy
        · exact ha.1 y hy
        · rw [List.mem_singleton.mp hy]
          exact hr.1
      have hmemt : ∀ y, y ∈ a.trace ++ [(genRandomIndividual params a.rng).1] →
          conformsTo params y := by
        intro y hy
        rcases List.mem_append.mp hy with hy | hy
        · exact ha.2.2 y hy
        · rw [List.mem_singleton.mp hy]
          exact hr.1
      exact ⟨⟨hmemb, hr.2, hmemt⟩, by simp⟩)
  have hiter := foldl_inv
    (fun st : DeSt =>
      (∀ y, y ∈ st.pop → conformsTo params y) ∧
        st.pop.length = popSize.toNat ∧ rngOK st.rng ∧
        (∀ y, y ∈ st.trace → conformsTo params y))
    (fun st _ =>
      (List.range popSize.toNat).foldl
        (deIndividualStep measure objectives params.length Fdw CR popSize pickFuel) st)
    (List.range generations.toNat)
    ((List.range popSize.toNat).foldl
      (fun (acc : DeSt) _ =>
        let rI := genRandomIndividual params acc.rng
        let f := evaluateFitness measure objectives rI.1
        { acc with pop := acc.pop ++ [rI.1], fitness := acc.fitness ++ [f],
                   rng := rI.2, trace := acc.trace ++ [rI.1] })
      { pop := [], fitness := [], rng := g, trace := [] })
    ⟨hinit.1.1, by simpa using hinit.2, hinit.1.2.1, hinit.1.2.2⟩
    (by
      intro a b _hb ha
      refine foldl_inv
        (fun st : DeSt =>
          (∀ y, y ∈ st.pop → conformsTo params y) ∧
            st.pop.length = popSize.toNat ∧ rngOK st.rng ∧
            (∀ y, y ∈ st.trace → conformsTo params y))
        (deIndividualStep measure objectives params.length Fdw CR popSize pickFuel)
        (List.range popSize.toNat) a ha ?_
      intro s i hi hs
      simp only [List.mem_range] at hi
      exact deIndividualStep_spec measure objectives params Fdw CR popSize
        pickFuel s i hs.1 hs.2.1 hs.2.2.1 hs.2.2.2 hi)
  exact hiter.2.2.2 x hx

/-- The fields of one Metropolis step that the bounds invariant watches: the
new current point is the neighbor or the old point, the RNG advances by the
neighbor draws plus at most one acceptance draw, and exactly the neighbor is
traced. -/
theorem saStep_fields (measure : List Param → List ℚ)
    (objectives : List Objective) (expQ : ℚ → ℚ) (temp : ℚ) (st : SaSt) :
    ((saStep measure objectives expQ temp st).current =
        (genNeighbor temp st.current st.rng).1 ∨
      (saStep measure objectives expQ temp st).current = st.current) ∧
    ((saStep measure objectives expQ temp st).rng =
        (genNeighbor temp st.current st.rng).2 ∨
      (saStep measure objectives expQ temp st).rng =
        rngTail (genNeighbor temp st.current st.rng).2) ∧
    (saStep measure objectives expQ temp st).trace =
      st.trace ++ [(genNeighbor temp st.current st.rng).1] := by
  unfold saStep
  dsimp only
  split
  · split
    · split
      · exact ⟨Or.inl rfl, Or.inl rfl, rfl⟩
      · exact ⟨Or.inl rfl, Or.inl rfl, rfl⟩
    · exact ⟨Or.inr rfl, Or.inl rfl, rfl⟩
  · split
    · split
      · exact ⟨Or.inl rfl, Or.inr rfl, rfl⟩
      · exact ⟨Or.inl rfl, Or.inr rfl, rfl⟩
    · exact ⟨Or.inr rfl, Or.inr rfl, rfl⟩

/-- One Metropolis step preserves the bounds invariant. -/
theorem saStep_spec (measure : List Param → List ℚ)
    (objectives : List Objective) (expQ : ℚ → ℚ) (temp : ℚ)
    (params : List Param) (st : SaSt)
    (hc : conformsTo params st.current) (hg : rngOK st.rng)
    (htr : ∀ x, x ∈ st.trace → conformsTo params x) :
    conformsTo params (saStep measure objectives expQ temp st).current ∧
    rngOK (saStep measure objectives expQ temp st).rng ∧
    (∀ x, x ∈ (saStep measure objectives expQ temp st).trace →
      conformsTo params x) := by
  have hnb := genNeighbor_spec temp params st.current st.rng hc hg
  obtain ⟨hcur, hrng, htrc⟩ := saStep_fields measure objectives expQ temp st
  refine ⟨?_, ?_, ?_⟩
  · rcases hcur with h | h
    · rw [h]
      exact hnb.1
    · rw [h]
      exact hc
  · rcases hrng with h | h
    · rw [h]
      exact hnb.2
    · rw [h]
      exact rngOK_tail hnb.2
  · rw [htrc]
    intro y hy
    rcases List.mem_append.mp hy with hy | hy
    · exact htr y hy
    · rw [List.mem_singleton.mp hy]
      exact hnb.1

/-- The cooling loop preserves the bounds invariant. -/
theorem saCoolLoop_spec (measure : List Param → List ℚ)
    (objectives : List Objective) (expQ : ℚ → ℚ)
    (finalTemp coolingRate : ℚ) (iterationsPerTemp : ℤ)
    (params : List Param) :
    ∀ (fuel : ℕ) (temp : ℚ) (st : SaSt),
      conformsTo params st.current → rngOK st.rng →
      (∀ x, x ∈ st.trace → conformsTo params x) →
      conformsTo params (saCoolLoop measure objectives expQ finalTemp
        coolingRate iterationsPerTemp fuel temp st).current ∧
      rngOK (saCoolLoop measure objectives expQ finalTemp coolingRate
        iterationsPerTemp fuel temp st).rng ∧
      (∀ x, x ∈ (saCoolLoop measure objectives expQ finalTemp coolingRate
        iterationsPerTemp fuel temp st).trace → conformsTo params x) := by
  intro fuel
  induction fuel with
  | zero =>
    intro temp st h1 h2 h3
    rw [saCoolLoop]
    exact ⟨h1, h2, h3⟩
  | succ n ih =>
    intro temp st h1 h2 h3
    rw [saCoolLoop]
    split
    · have hin := foldl_inv
        (fun s : SaSt => conformsTo params s.current ∧ rngOK s.rng ∧
          (∀ x, x ∈ s.trace → conformsTo params x))
        (fun s _ => saStep measure objectives expQ temp s)
        (List.range iterationsPerTemp.toNat) st ⟨h1, h2, h3⟩
        (fun a b _hb ha =>
          saStep_spec measure objectives expQ temp params a ha.1 ha.2.1 ha.2.2)
      exact ih (temp * coolingRate) _ hin.1 hin.2.1 hin.2.2
    · exact ⟨h1, h2, h3⟩

/-- Every vector `SimulatedAnnealing::optimize` hands to the fitness function
conforms to the parameter bounds. -/
theorem optimizeSimulatedAnnealing_trace (measure : List Param → List ℚ)
    (objectives : List Objective) (expQ : ℚ → ℚ) (params : List Param)
    (initialTemp finalTemp coolingRate : ℚ) (iterationsPerTemp : ℤ)
    (coolFuel : ℕ) (g : Rng) (hOK : paramsOK params) (hg : rngOK g) :
    ∀ x, x ∈ (optimizeSimulatedAnnealing measure objectives expQ params
      initialTemp finalTemp coolingRate iterationsPerTemp coolFuel g).2 →
      conformsTo params x := by
  intro x hx
  have hc := genRandomIndividual_spec params g hOK hg
  have h := saCoolLoop_spec measure objectives expQ finalTemp coolingRate
    iterationsPerTemp params coolFuel initialTemp
    { current := (genRandomIndividual params g).1,
      currentEnergy := -evaluateFitness measure objectives
        (genRandomIndividual params g).1,
      best := (genRandomIndividual params g).1,
      bestEnergy := -evaluateFitness measure objectives
        (genRandomIndividual params g).1,
      rng := (genRandomIndividual params g).2,
      trace := [(genRandomIndividual params g).1] }
    hc.1 hc.2
    (by
      intro y hy
      rw [List.mem_singleton.mp hy]
      exact hc.1)
  exact h.2.2 x hx

/-- Membership through the insertion-sort step of the Nelder-Mead `order`
array. -/
theorem insertSorted_mem (values : List ℚ) (i j : ℕ) :
    ∀ (l : List ℕ), j ∈ insertSorted values i l → j = i ∨ j ∈ l := by
  intro l
  induction l with
  | nil =>
    intro h
    rw [insertSorted] at h
    exact Or.inl (List.mem_singleton.mp h)
  | cons a rest ih =>
    intro h
    rw [insertSorted] at h
    split at h
    · rcases List.mem_cons.mp h with h | h
      · exact Or.inl h
      · exact Or.inr h
    · rcases List.mem_cons.mp h with h | h
      · exact Or.inr (by rw [h]; exact List.mem_cons_self _ _)
      · rcases ih h with h | h
        · exact Or.inl h
        · exact Or.inr (List.mem_cons_of_mem _ h)

/-- Every index in the Nelder-Mead `order` array indexes into `values`. -/
theorem sortIndices_lt (values : List ℚ) :
    ∀ j, j ∈ sortIndices values → j < values.length := by
  unfold sortIndices
  exact foldl_inv (fun acc : List ℕ => ∀ j, j ∈ acc → j < values.length)
    (fun acc i => insertSorted values i acc) (List.range values.length) []
    (fun j hj => absurd hj (List.not_mem_nil j))
    (by
      intro a b hb ha j hj
      rcases insertSorted_mem values b j a hj with h | h
      · rw [h]
        exact List.mem_range.mp hb
      · exact ha j h)

/-- `headD 0` of an index list all below `n` is below `n` (also when the list
is empty, provided `n` is positive). -/
theorem headD_lt {l : List ℕ} {n : ℕ} (h : ∀ j, j ∈ l → j < n) (hn : 0 < n) :
    l.headD 0 < n := by
  cases l with
  | nil => exact hn
  | cons a rest => exact h a (List.mem_cons_self _ _)

/-- The last-or-default element of a nonempty list is a member. -/
theorem getLastD_mem_cons {α : Type} :
    ∀ (l : List α) (a d : α), (a :: l).getLastD d ∈ a :: l := by
  intro l
  induction l with
  | nil =>
    intro a d
    simp [List.getLastD_cons]
  | cons b rest ih =>
    intro a d
    rw [List.getLastD_cons]
    exact List.mem_cons_of_mem _ (ih b a)

/-- `getLastD 0` of an index list all below `n` is below `n`. -/
theorem getLastD_lt {l : List ℕ} {n : ℕ} (h : ∀ j, j ∈ l → j < n)
    (hn : 0 < n) : l.getLastD 0 < n := by
  cases l with
  | nil => exact hn
  | cons a rest => exact h _ (getLastD_mem_cons rest a 0)

/-- The Nelder-Mead centroid keeps the structural bounds of the parameter
list (its current values are sums and quotients, but its min/max fields are
copied from a simplex point). -/
theorem nmCentroid_boundsMatch (params : List Param)
    (simplex : List (List Param)) (order : List ℕ)
    (hsim : ∀ x, x ∈ simplex → conformsTo params x) (hne : simplex ≠ [])
    (hord : ∀ j, j ∈ order → j < simplex.length) :
    boundsMatch params (nmCentroid params.length simplex order) := by
  unfold nmCentroid
  dsimp only
  have h0 : simplex.getD (order.headD 0) [] ∈ simplex := by
    rw [List.getD_eq_getElem _ _ (headD_lt hord (List.length_pos.mpr hne))]
    exact List.getElem_mem _
  refine boundsMatch_map_cur ?_ _
  refine foldl_inv (fun cen => boundsMatch params cen) _
    ((order.drop 1).take (order.length - 2)) _ (hsim _ h0).1 ?_
  intro cen oi _hoi hcen
  refine foldl_inv (fun c2 => boundsMatch params c2) _
    (List.range params.length) cen hcen ?_
  intro c2 j hj hc2
  simp only [List.mem_range] at hj
  dsimp only
  have hjl : j < c2.length := by rw [hc2.1]; exact hj
  exact boundsMatch_set hc2 ⟨(hc2.2 j hjl).1, (hc2.2 j hjl).2⟩

/-- A parameter read from a well-formed parameter list has a nonempty bound
interval. -/
theorem paramsOK_getD {params : List Param} (h : paramsOK params) {m : ℕ}
    (hm : m < params.length) :
    (params.getD m defaultParam).minValue ≤ (params.getD m defaultParam).maxValue := by
  rw [List.getD_eq_getElem _ _ hm]
  exact h _ (List.getElem_mem _)

/-- `NelderMead::reflect` returns an in-bounds vector: every gene is written
with a value clamped into that gene's own bounds. -/
theorem nmReflect_conforms (params centroid point : List Param) (coef : ℚ)
    (hOK : paramsOK params) (hc : boundsMatch params centroid) :
    conformsTo params (nmReflect params.length centroid point coef) := by
  unfold nmReflect
  suffices h : ∀ n : ℕ, n ≤ params.length →
      boundsMatch params ((List.range n).foldl
        (fun res j =>
          let cj := centroid.getD j defaultParam
          let pj := point.getD j defaultParam
          let rj := res.getD j defaultParam
          let v := cj.currentValue + coef * (cj.currentValue - pj.currentValue)
          res.set j { rj with currentValue := clampQ v rj.minValue rj.maxValue })
        centroid) ∧
      ∀ j, j < n → paramInBounds (((List.range n).foldl
        (fun res j =>
          let cj := centroid.getD j defaultParam
          let pj := point.getD j defaultParam
          let rj := res.getD j defaultParam
          let v := cj.currentValue + coef * (cj.currentValue - pj.currentValue)
          res.set j { rj with currentValue := clampQ v rj.minValue rj.maxValue })
        centroid).getD j defaultParam) by
    have h2 := h params.length (le_refl _)
    refine ⟨h2.1, ?_⟩
    intro i hi
    rw [h2.1.1] at hi
    exact h2.2 i hi
  intro n
  induction n with
  | zero =>
    intro _
    exact ⟨hc, by intro j hj; omega⟩
  | succ m ih =>
    intro hle
    have ihm := ih (by omega)
    rw [List.range_succ, List.foldl_append, List.foldl_cons, List.foldl_nil]
    dsimp only
    have hml : m < ((List.range m).foldl
        (fun res j =>
          let cj := centroid.getD j defaultParam
          let pj := point.getD j defaultParam
          let rj := res.getD j defaultParam
          let v := cj.currentValue + coef * (cj.currentValue - pj.currentValue)
          res.set j { rj with currentValue := clampQ v rj.minValue rj.maxValue })
        centroid).length := by
      rw [ihm.1.1]
      omega
    have hbm := ihm.1.2 m hml
    have hmm : (((List.range m).foldl
        (fun res j =>
          let cj := centroid.getD j defaultParam
          let pj := point.getD j defaultParam
          let rj := res.getD j defaultParam
          let v := cj.currentValue + coef * (cj.currentValue - pj.currentValue)
          res.set j { rj with currentValue := clampQ v rj.minValue rj.maxValue })
        centroid).getD m defaultParam).minValue ≤
        (((List.range m).foldl
        (fun res j =>
          let cj := centroid.getD j defaultParam
          let pj := point.getD j defaultParam
          let rj := res.getD j defaultParam
          let v := cj.currentValue + coef * (cj.currentValue - pj.currentValue)
          res.set j { rj with currentValue := clampQ v rj.minValue rj.maxValue })
        centroid).getD m defaultParam).maxValue := by
      rw [hbm.1, hbm.2]
      exact paramsOK_getD hOK (by omega)
    refine ⟨boundsMatch_set ihm.1 ⟨hbm.1, hbm.2⟩, ?_⟩
    intro j hj
    by_cases hjm : j = m
    · subst hjm
      rw [getD_set_self _ _ _ _ hml]
      exact (clampQ_mem _ _ _ hmm)
    · rw [getD_set_ne _ _ _ _ _ hjm]
      exact ihm.2 j (by omega)

/-- A convex combination with coefficient in `[0, 1]` of two values of
`[m, M]` stays in `[m, M]`. -/
theorem convex_mem {a b m M sigma : ℚ} (hs0 : 0 ≤ sigma) (hs1 : sigma ≤ 1)
    (ham : m ≤ a) (haM : a ≤ M) (hbm : m ≤ b) (hbM : b ≤ M) :
    m ≤ a + sigma * (b - a) ∧ a + sigma * (b - a) ≤ M := by
  constructor <;>
    nlinarith [mul_nonneg hs0 (sub_nonneg.mpr hbm),
      mul_nonneg (sub_nonneg.mpr hs1) (sub_nonneg.mpr ham),
      mul_nonneg hs0 (sub_nonneg.mpr hbM),
      mul_nonneg (sub_nonneg.mpr hs1) (sub_nonneg.mpr haM)]

/-- The unclamped per-gene shrink update keeps a point in bounds provided the
shrink coefficient lies in `[0, 1]` (the convexity argument; for coefficients
outside `[0, 1]` the update can and does escape, see the C9
counterexample). -/
theorem nmShrinkPoint_conforms (params s0 si : List Param) (sigma : ℚ)
    (hs0 : 0 ≤ sigma) (hs1 : sigma ≤ 1)
    (h0 : conformsTo params s0) (hi : conformsTo params si) :
    conformsTo params ((List.range params.length).foldl
      (fun v j =>
        let vj := v.getD j defaultParam
        let s0j := s0.getD j defaultParam
        let nv := s0j.currentValue + sigma * (vj.currentValue - s0j.currentValue)
        v.set j { vj with currentValue := nv })
      si) := by
  refine foldl_inv (fun v => conformsTo params v) _ (List.range params.length)
    si hi ?_
  intro v j hj hv
  simp only [List.mem_range] at hj
  dsimp only
  have hjl : j < v.length := by rw [conformsTo_length hv]; exact hj
  have gj := conformsTo_getD hv hjl
  have hj0 : j < s0.length := by rw [conformsTo_length h0]; exact hj
  have g0 := conformsTo_getD h0 hj0
  have ham : (params.getD j defaultParam).minValue ≤
      (s0.getD j defaultParam).currentValue := by
    rw [← g0.1]
    exact g0.2.2.1
  have haM : (s0.getD j defaultParam).currentValue ≤
      (params.getD j defaultParam).maxValue := by
    rw [← g0.2.1]
    exact g0.2.2.2
  have hbm : (params.getD j defaultParam).minValue ≤
      (v.getD j defaultParam).currentValue := by
    rw [← gj.1]
    exact gj.2.2.1
  have hbM : (v.getD j defaultParam).currentValue ≤
      (params.getD j defaultParam).maxValue := by
    rw [← gj.2.1]
    exact gj.2.2.2
  have hcv := convex_mem hs0 hs1 ham haM hbm hbM
  refine conformsTo_set hv ⟨gj.1, gj.2.1, ?_, ?_⟩
  · show (v.getD j defaultParam).minValue ≤ _
    rw [gj.1]
    exact hcv.1
  · show _ ≤ (v.getD j defaultParam).maxValue
    rw [gj.2.1]
    exact hcv.2

/-- The shrink step preserves the bounds invariant when `σ ∈ [0, 1]`. -/
theorem nmShrink_spec (measure : List Param → List ℚ)
    (objectives : List Objective) (params : List Param) (sigma : ℚ)
    (st : NmSt) (hs0 : 0 ≤ sigma) (hs1 : sigma ≤ 1)
    (hsim : ∀ x, x ∈ st.simplex → conformsTo params x)
    (htr : ∀ x, x ∈ st.trace → conformsTo params x)
    (hlen : st.values.length = st.simplex.length) :
    (∀ x, x ∈ (nmShrink measure objectives params.length sigma st).simplex →
      conformsTo params x) ∧
    (∀ x, x ∈ (nmShrink measure objectives params.length sigma st).trace →
      conformsTo params x) ∧
    (nmShrink measure objectives params.length sigma st).values.length =
      (nmShrink measure objectives params.length sigma st).simplex.length ∧
    (nmShrink measure objectives params.length sigma st).simplex.length =
      st.simplex.length := by
  unfold nmShrink
  have h := foldl_inv
    (fun acc : NmSt =>
      (∀ x, x ∈ acc.simplex → conformsTo params x) ∧
      (∀ x, x ∈ acc.trace → conformsTo params x) ∧
      acc.values.length = st.values.length ∧
      acc.simplex.length = st.simplex.length)
    (fun acc k =>
      let i := k + 1
      let s0 := acc.simplex.getD 0 []
      let si := acc.simplex.getD i []
      let si2 := (List.range params.length).foldl
        (fun v j =>
          let vj := v.getD j defaultParam
          let s0j := s0.getD j defaultParam
          let nv := s0j.currentValue + sigma * (vj.currentValue - s0j.currentValue)
          v.set j { vj with currentValue := nv })
        si
      let f := evaluateFitness measure objectives si2
      { simplex := acc.simplex.set i si2, values := acc.values.set i (-f),
        trace := acc.trace ++ [si2] })
    (List.range (st.simplex.length - 1)) st ⟨hsim, htr, rfl, rfl⟩
    (by
      intro a k hk ha
      simp only [List.mem_range] at hk
      have hpos : 0 < a.simplex.length := by omega
      have h0m : a.simplex.getD 0 [] ∈ a.simplex := by
        rw [List.getD_eq_getElem _ _ hpos]
        exact List.getElem_mem _
      have him : a.simplex.getD (k + 1) [] ∈ a.simplex := by
        rw [List.getD_eq_getElem _ _ (by omega : k + 1 < a.simplex.length)]
        exact List.getElem_mem _
      have hpt := nmShrinkPoint_conforms params (a.simplex.getD 0 [])
        (a.simplex.getD (k + 1) []) sigma hs0 hs1 (ha.1 _ h0m) (ha.1 _ him)
      dsimp only
      refine ⟨?_, ?_, ?_, ?_⟩
      · intro y hy
        rcases List.mem_or_eq_of_mem_set hy with hy | hy
        · exact ha.1 y hy
        · rw [hy]
          exact hpt
      · intro y hy
        rcases List.mem_append.mp hy with hy | hy
        · exact ha.2.1 y hy
        · rw [List.mem_singleton.mp hy]
          exact hpt
      · rw [List.length_set]
        exact ha.2.2.1
      · rw [List.length_set]
        exact ha.2.2.2)
  refine ⟨h.1, h.2.1, ?_, h.2.2.2⟩
  rw [h.2.2.1, h.2.2.2, hlen]

/-- One Nelder-Mead iteration preserves the bounds invariant (given
`σ ∈ [0, 1]`, which the shrink branch needs). -/
theorem nmIteration_spec (measure : List Param → List ℚ)
    (objectives : List Objective) (params : List Param)
    (alpha gamma rho sigma tolerance : ℚ) (st : NmSt)
    (hs0 : 0 ≤ sigma) (hs1 : sigma ≤ 1) (hOK : paramsOK params)
    (hsim : ∀ x, x ∈ st.simplex → conformsTo params x)
    (htr : ∀ x, x ∈ st.trace → conformsTo params x)
    (hlen : st.values.length = st.simplex.length) (hne : st.simplex ≠ []) :
    (∀ x, x ∈ (nmIteration measure objectives params.length alpha gamma rho
      sigma tolerance st).1.simplex → conformsTo params x) ∧
    (∀ x, x ∈ (nmIteration measure objectives params.length alpha gamma rho
      sigma tolerance st).1.trace → conformsTo params x) ∧
    (nmIteration measure objectives params.length alpha gamma rho
      sigma tolerance st).1.values.length =
      (nmIteration measure objectives params.length alpha gamma rho
        sigma tolerance st).1.simplex.length ∧
    (nmIteration measure objectives params.length alpha gamma rho
      sigma tolerance st).1.simplex ≠ [] := by
  have hpos : 0 < st.simplex.length := List.length_pos.mpr hne
  have hord : ∀ j, j ∈ sortIndices st.values → j < st.simplex.length := by
    intro j hj
    rw [← hlen]
    exact sortIndices_lt st.values j hj
  have hwl : (sortIndices st.values).getLastD 0 < st.simplex.length :=
    getLastD_lt hord hpos
  have hworst : st.simplex.getD ((sortIndices st.values).getLastD 0) [] ∈
      st.simplex := by
    rw [List.getD_eq_getElem _ _ hwl]
    exact List.getElem_mem _
  have hcent := nmCentroid_boundsMatch params st.simplex (sortIndices st.values)
    hsim hne hord
  have hrefl := nmReflect_conforms params
    (nmCentroid params.length st.simplex (sortIndices st.values))
    (st.simplex.getD ((sortIndices st.values).getLastD 0) []) alpha hOK hcent
  have hexp := nmReflect_conforms params
    (nmCentroid params.length st.simplex (sortIndices st.values))
    (st.simplex.getD ((sortIndices st.values).getLastD 0) []) gamma hOK hcent
  have hcontr := nmReflect_conforms params
    (nmCentroid params.length st.simplex (sortIndices st.values))
    (st.simplex.getD ((sortIndices st.values).getLastD 0) []) (-rho) hOK hcent
  have hsetlen : ∀ (pt : List Param) (val : ℚ),
      (st.values.set ((sortIndices st.values).getLastD 0) val).length =
      (st.simplex.set ((sortIndices st.values).getLastD 0) pt).length := by
    intro pt val
    rw [List.length_set, List.length_set]
    exact hlen
  have hsetne : ∀ pt : List Param,
      st.simplex.set ((sortIndices st.values).getLastD 0) pt ≠ [] := by
    intro pt
    apply List.length_pos.mp
    rw [List.length_set]
    exact hpos
  have hsetmem : ∀ pt : List Param, conformsTo params pt →
      ∀ y, y ∈ st.simplex.set ((sortIndices st.values).getLastD 0) pt →
        conformsTo params y := by
    intro pt hpt y hy
    rcases List.mem_or_eq_of_mem_set hy with hy | hy
    · exact hsim y hy
    · rw [hy]
      exact hpt
  have htr1 : ∀ y, y ∈ st.trace ++ [nmReflect params.length
      (nmCentroid params.length st.simplex (sortIndices st.values))
      (st.simplex.getD ((sortIndices st.values).getLastD 0) []) alpha] →
      conformsTo params y := by
    intro y hy
    rcases List.mem_append.mp hy with hy | hy
    · exact htr y hy
    · rw [List.mem_singleton.mp hy]
      exact hrefl
  have htr2 : ∀ (coef : ℚ), conformsTo params (nmReflect params.length
      (nmCentroid params.length st.simplex (sortIndices st.values))
      (st.simplex.getD ((sortIndices st.values).getLastD 0) []) coef) →
      ∀ y, y ∈ (st.trace ++ [nmReflect params.length
        (nmCentroid params.length st.simplex (sortIndices st.values))
        (st.simplex.getD ((sortIndices st.values).getLastD 0) []) alpha]) ++
        [nmReflect params.length
          (nmCentroid params.length st.simplex (sortIndices st.values))
          (st.simplex.getD ((sortIndices st.values).getLastD 0) []) coef] →
        conformsTo params y := by
    intro coef hc y hy
    rcases List.mem_append.mp hy with hy | hy
    · exact htr1 y hy
    · rw [List.mem_singleton.mp hy]
      exact hc
  unfold nmIteration
  dsimp only
  split
  · exact ⟨hsim, htr, hlen, hne⟩
  · split
    · exact ⟨hsetmem _ hrefl, htr1, hsetlen _ _, hsetne _⟩
    · split
      · split
        · exact ⟨hsetmem _ hexp, htr2 gamma hexp, hsetlen _ _, hsetne _⟩
        · exact ⟨hsetmem _ hrefl, htr2 gamma hexp, hsetlen _ _, hsetne _⟩
      · split
        · exact ⟨hsetmem _ hcontr, htr2 (-rho) hcontr, hsetlen _ _, hsetne _⟩
        · have hshr := nmShrink_spec measure objectives params sigma
            { simplex := st.simplex,
              values := st.values,
              trace := (st.trace ++ [nmReflect params.length
                (nmCentroid params.length st.simplex (sortIndices st.values))
                (st.simplex.getD ((sortIndices st.values).getLastD 0) []) alpha]) ++
                [nmReflect params.length
                  (nmCentroid params.length st.simplex (sortIndices st.values))
                  (st.simplex.getD ((sortIndices st.values).getLastD 0) []) (-rho)] }
            hs0 hs1 hsim (htr2 (-rho) hcontr) hlen
          refine ⟨hshr.1, hshr.2.1, hshr.2.2.1, ?_⟩
          apply List.length_pos.mp
          rw [hshr.2.2.2]
          exact hpos

/-- The Nelder-Mead main loop preserves the bounds invariant. -/
theorem nmLoop_spec (measure : List Param → List ℚ)
    (objectives : List Objective) (params : List Param)
    (alpha gamma rho sigma tolerance : ℚ)
    (hs0 : 0 ≤ sigma) (hs1 : sigma ≤ 1) (hOK : paramsOK params) :
    ∀ (fuel : ℕ) (st : NmSt),
      (∀ x, x ∈ st.simplex → conformsTo params x) →
      (∀ x, x ∈ st.trace → conformsTo params x) →
      st.values.length = st.simplex.length → st.simplex ≠ [] →
      (∀ x, x ∈ (nmLoop measure objectives params.length alpha gamma rho sigma
        tolerance fuel st).simplex → conformsTo params x) ∧
      (∀ x, x ∈ (nmLoop measure objectives params.length alpha gamma rho sigma
        tolerance fuel st).trace → conformsTo params x) := by
  intro fuel
  induction fuel with
  | zero =>
    intro st h1 h2 _h3 _h4
    rw [nmLoop]
    exact ⟨h1, h2⟩
  | succ n ih =>
    intro st h1 h2 h3 h4
    have hit := nmIteration_spec measure objectives params alpha gamma rho
      sigma tolerance st hs0 hs1 hOK h1 h2 h3 h4
    rw [nmLoop]
    split
    · exact ⟨hit.1, hit.2.1⟩
    · exact ih _ hit.1 hit.2.1 hit.2.2.1 hit.2.2.2

/-- Every vector `NelderMead::optimize` hands to the fitness function
conforms to the parameter bounds, provided the shrink coefficient lies in
`[0, 1]`. -/
theorem optimizeNelderMead_trace (measure : List Param → List ℚ)
    (objectives : List Objective) (params : List Param)
    (alpha gamma rho sigma tolerance : ℚ) (maxIterations : ℤ) (g : Rng)
    (hs0 : 0 ≤ sigma) (hs1 : sigma ≤ 1) (hOK : paramsOK params)
    (hg : rngOK g) :
    ∀ x, x ∈ (optimizeNelderMead measure objectives params alpha gamma rho
      sigma tolerance maxIterations g).2 → conformsTo params x := by
  intro x hx
  have hp0 := genRandomIndividual_spec params g hOK hg
  have hst0 := foldl_inv
    (fun st : NmSt =>
      (∀ y, y ∈ st.simplex → conformsTo params y) ∧
      (∀ y, y ∈ st.trace → conformsTo params y) ∧
      st.values.length = st.simplex.length ∧ st.simplex ≠ [])
    (fun st i =>
      let base := st.simplex.getD 0 []
      let pi0 := base.getD i defaultParam
      let moved := pi0.currentValue + 1 / 20 * (pi0.maxValue - pi0.minValue)
      let clamped := clampQ moved pi0.minValue pi0.maxValue
      let pt := base.set i { pi0 with currentValue := clamped }
      let f := evaluateFitness measure objectives pt
      { simplex := st.simplex ++ [pt], values := st.values ++ [-f],
        trace := st.trace ++ [pt] })
    (List.range params.length)
    { simplex := [(genRandomIndividual params g).1],
      values := [-evaluateFitness measure objectives
        (genRandomIndividual params g).1],
      trace := [(genRandomIndividual params g).1] }
    ⟨by
      intro y hy
      rw [List.mem_singleton.mp hy]
      exact hp0.1,
     by
      intro y hy
      rw [List.mem_singleton.mp hy]
      exact hp0.1,
     rfl, by simp⟩
    (by
      intro a i hi ha
      simp only [List.mem_range] at hi
      have hbm : a.simplex.getD 0 [] ∈ a.simplex := by
        rw [List.getD_eq_getElem _ _ (List.length_pos.mpr ha.2.2.2)]
        exact List.getElem_mem _
      have hbase := ha.1 _ hbm
      have hil : i < (a.simplex.getD 0 []).length := by
        rw [conformsTo_length hbase]
        exact hi
      have gi := conformsTo_getD hbase hil
      have hmm : ((a.simplex.getD 0 []).getD i defaultParam).minValue ≤
          ((a.simplex.getD 0 []).getD i defaultParam).maxValue :=
        le_trans gi.2.2.1 gi.2.2.2
      have hpt : conformsTo params ((a.simplex.getD 0 []).set i
          { (a.simplex.getD 0 []).getD i defaultParam with
            currentValue := clampQ
              (((a.simplex.getD 0 []).getD i defaultParam).currentValue +
                1 / 20 * (((a.simplex.getD 0 []).getD i defaultParam).maxValue -
                  ((a.simplex.getD 0 []).getD i defaultParam).minValue))
              ((a.simplex.getD 0 []).getD i defaultParam).minValue
              ((a.simplex.getD 0 []).getD i defaultParam).maxValue }) :=
        conformsTo_set hbase ⟨gi.1, gi.2.1, (clampQ_mem _ _ _ hmm).1,
          (clampQ_mem _ _ _ hmm).2⟩
      dsimp only
      refine ⟨?_, ?_, ?_, ?_⟩
      · intro y hy
        rcases List.mem_append.mp hy with hy | hy
        · exact ha.1 y hy
        · rw [List.mem_singleton.mp hy]
          exact hpt
      · intro y hy
        rcases List.mem_append.mp hy with hy | hy
        · exact ha.2.1 y hy
        · rw [List.mem_singleton.mp hy]
          exact hpt
      · rw [List.length_append, List.length_append, ha.2.2.1]
        rfl
      · simp)
  have hN := nmLoop_spec measure objectives params alpha gamma rho sigma
    tolerance hs0 hs1 hOK maxIterations.toNat
    ((List.range params.length).foldl
      (fun st i =>
        let base := st.simplex.getD 0 []
        let pi0 := base.getD i defaultParam
        let moved := pi0.currentValue + 1 / 20 * (pi0.maxValue - pi0.minValue)
        let clamped := clampQ moved pi0.minValue pi0.maxValue
        let pt := base.set i { pi0 with currentValue := clamped }
        let f := evaluateFitness measure objectives pt
        { simplex := st.simplex ++ [pt], values := st.values ++ [-f],
          trace := st.trace ++ [pt] })
      { simplex := [(genRandomIndividual params g).1],
        values := [-evaluateFitness measure objectives
          (genRandomIndividual params g).1],
        trace := [(genRandomIndividual params g).1] })
    hst0.1 hst0.2.1 hst0.2.2.1 hst0.2.2.2
  exact hN.2 x hx

/-- **C9** (corrected): for every run of the five optimizers (genetic
algorithm, particle swarm, differential evolution, simulated annealing,
Nelder-Mead) over parameters whose bounds satisfy `min ≤ max` and whose
initial values lie within those bounds, and for every RNG stream whose raw
draws lie in `[0, 1]`, every parameter vector the algorithm passes to the
measurement/fitness function (the trace component of each model) keeps every
parameter's current value within `[min, max]` — for Nelder-Mead under the
additional hypothesis that the shrink coefficient `σ` lies in `[0, 1]`.  The
source constructor caps no coefficient, and the shrink step
(AdvancedOptimizer.hpp lines 243–251) is the one update applied without
clamping, so for `σ ∉ [0, 1]` the invariant fails
(`Circuit.C9_counterexample`); every other generated vector is clamped or
drawn inside its bounds, which needs no assumption beyond `min ≤ max`. -/
theorem C9_bounds_invariant (measure : List Param → List ℚ)
    (objectives : List Objective) (expQ : ℚ → ℚ) (params : List Param)
    (popSize generations swarmSize iterations dePopSize deGenerations
      iterationsPerTemp maxIterations : ℤ)
    (mr cr w c1 c2 Fdw CR initialTemp finalTemp coolingRate alpha gamma rho
      sigma tolerance : ℚ) (pickFuel coolFuel : ℕ) (g : Rng)
    (hOK : paramsOK params) (_hinit : ∀ p, p ∈ params → paramInBounds p)
    (hg : rngOK g) (hs0 : 0 ≤ sigma) (hs1 : sigma ≤ 1) :
    (∀ x, x ∈ (optimizeGeneticAlgorithm measure objectives params popSize
      generations mr cr g).2 → conformsTo params x) ∧
    (∀ x, x ∈ (optimizeParticleSwarm measure objectives params swarmSize
      iterations w c1 c2 g).2 → conformsTo params x) ∧
    (∀ x, x ∈ (optimizeDifferentialEvolution measure objectives params
      dePopSize deGenerations Fdw CR pickFuel g).2 → conformsTo params x) ∧
    (∀ x, x ∈ (optimizeSimulatedAnnealing measure objectives expQ params
      initialTemp finalTemp coolingRate iterationsPerTemp coolFuel g).2 →
      conformsTo params x) ∧
    (∀ x, x ∈ (optimizeNelderMead measure objectives params alpha gamma rho
      sigma tolerance maxIterations g).2 → conformsTo params x) :=
  ⟨optimizeGeneticAlgorithm_trace measure objectives params popSize
    generations mr cr g hOK hg,
   optimizeParticleSwarm_trace measure objectives params swarmSize iterations
    w c1 c2 g hOK hg,
   optimizeDifferentialEvolution_trace measure objectives params dePopSize
    deGenerations Fdw CR pickFuel g hOK hg,
   optimizeSimulatedAnnealing_trace measure objectives expQ params initialTemp
    finalTemp coolingRate iterationsPerTemp coolFuel g hOK hg,
   optimizeNelderMead_trace measure objectives params alpha gamma rho sigma
    tolerance maxIterations g hs0 hs1 hOK hg⟩

/-- Witness for C9: a concrete one-parameter instance (bounds `[0, 1]`,
initial value 0, all-zeros draw stream, `σ = 1/2`) satisfying every
hypothesis, with the invariant instantiated for all five optimizers. -/
theorem C9_witness :
    paramsOK cxParams ∧ (∀ p, p ∈ cxParams → paramInBounds p) ∧
    rngOK cxRng ∧ (0 : ℚ) ≤ 1 / 2 ∧ (1 : ℚ) / 2 ≤ 1 ∧
    ((∀ x, x ∈ (optimizeGeneticAlgorithm cxMeasure cxObjectives cxParams 1 1
      (1 / 2) (1 / 2) cxRng).2 → conformsTo cxParams x) ∧
     (∀ x, x ∈ (optimizeParticleSwarm cxMeasure cxObjectives cxParams 1 1
      (1 / 2) (1 / 2) (1 / 2) cxRng).2 → conformsTo cxParams x) ∧
     (∀ x, x ∈ (optimizeDifferentialEvolution cxMeasure cxObjectives cxParams
      1 1 (1 / 2) (1 / 2) 3 cxRng).2 → conformsTo cxParams x) ∧
     (∀ x, x ∈ (optimizeSimulatedAnnealing cxMeasure cxObjectives (fun q => q)
      cxParams 1 (1 / 2) (1 / 2) 1 3 cxRng).2 → conformsTo cxParams x) ∧
     (∀ x, x ∈ (optimizeNelderMead cxMeasure cxObjectives cxParams 1 2 (1 / 2)
      (1 / 2) (1 / 1000000) 1 cxRng).2 → conformsTo cxParams x)) :=
  ⟨by decide, by decide,
   fun n => ⟨le_refl 0, show (0 : ℚ) ≤ 1 by norm_num⟩,
   by norm_num, by norm_num,
   C9_bounds_invariant cxMeasure cxObjectives (fun q => q) cxParams 1 1 1 1 1 1
     1 1 (1 / 2) (1 / 2) (1 / 2) (1 / 2) (1 / 2) (1 / 2) (1 / 2) 1 (1 / 2)
     (1 / 2) 1 2 (1 / 2) (1 / 2) (1 / 1000000) 3 3 cxRng (by decide)
     (by decide) (fun n => ⟨le_refl 0, show (0 : ℚ) ≤ 1 by norm_num⟩)
     (by norm_num) (by norm_num)⟩

/-- Counterexample for C9 as literally claimed (no restriction on the
optimizer coefficients): a one-iteration Nelder-Mead run over `x ∈ [0, 1]`
with shrink coefficient `σ = 30` — the parameters are well-bounded, the
initial value is in bounds and every raw draw is in `[0, 1]`, yet the run
passes to the measurement function a vector whose current value `3/2` lies
outside `[0, 1]`: the shrink step (the only unclamped update in the five
algorithms) moves `simplex[1]` to `simplex[0] + 30·(simplex[1] −
simplex[0])`. -/
theorem C9_counterexample :
    paramsOK cxParams ∧ (∀ p, p ∈ cxParams → paramInBounds p) ∧
    rngOK cxRng ∧ ¬ (∀ x, x ∈ cxRun.2 → conformsTo cxParams x) :=
  ⟨by decide, by decide,
   fun n => ⟨le_refl 0, show (0 : ℚ) ≤ 1 by norm_num⟩, by decide⟩

end Circuit
